import Mathlib

set_option maxHeartbeats 1000000

/-!
Verification of the one-directional folder synchronization engine
(`NaiveSync`, `FsHelper`, `ActiveSync`, and the `Sync` orchestrator).

The filesystem is modelled as a finite tree.  Paths are lists of entry
names, relative to the corresponding root (source root or destination
root); the "Relative Path Mapping" of the specification is therefore the
identity on these relative paths.  Entries are regular files (with a
content string and rational access/modification timestamps, mirroring
`mtimeMs`), directories (ordered association lists of children, the order
being the `readdir` listing order), or `other` entries (symlinks, sockets,
devices: a dirent that is neither a file nor a directory).  For an `other`
entry the flag `statOk` records whether `stat` succeeds on it (it fails on
a broken symlink, succeeds on a socket); a content copy (`fs.copyFile`)
from a non-regular entry fails.  Fallible operations return `Option`,
`none` standing for a thrown/propagated filesystem error.  Every mutating
operation additionally returns the list of destructive/creative primitive
filesystem calls it performed, in order, so that ordering claims
(cleanup before copy, "no content write") can be stated about the trace.
-/

abbrev FPath := List String

/-- Componentwise test that the first path is a prefix of the second. -/
def pfx : FPath → FPath → Bool
  | [], _ => true
  | _ :: _, [] => false
  | a :: p, b :: q => a == b && pfx p q

theorem pfx_iff (p q : FPath) : pfx p q = true ↔ ∃ r, q = p ++ r := by
  induction p generalizing q with
  | nil => simp [pfx]
  | cons a p ih =>
    cases q with
    | nil => simp [pfx]
    | cons b q =>
      simp only [pfx, Bool.and_eq_true, beq_iff_eq, ih]
      constructor
      · rintro ⟨rfl, r, rfl⟩; exact ⟨r, rfl⟩
      · rintro ⟨r, h⟩
        cases h
        exact ⟨rfl, r, rfl⟩

theorem pfx_refl (p : FPath) : pfx p p = true := by
  rw [pfx_iff]; exact ⟨[], by simp⟩

theorem pfx_append (p q : FPath) : pfx p (p ++ q) = true := by
  rw [pfx_iff]; exact ⟨q, rfl⟩

theorem pfx_snoc_iff (p : FPath) (n : String) (q : FPath) :
    pfx q (p ++ [n]) = true ↔ pfx q p = true ∨ q = p ++ [n] := by
  simp only [pfx_iff]
  constructor
  · rintro ⟨r, h⟩
    rcases r.eq_nil_or_concat with rfl | ⟨r', a, rfl⟩
    · right; rw [h]; simp
    · left
      refine ⟨r', ?_⟩
      have h2 : p ++ [n] = q ++ r' ++ [a] := by rw [h]; simp
      have h3 := congrArg List.dropLast h2
      simpa using h3
  · rintro (⟨r, rfl⟩ | rfl)
    · exact ⟨r ++ [n], by simp⟩
    · exact ⟨[], by simp⟩

theorem pfx_singleton_iff (n m : String) : pfx [n] [m] = true ↔ n = m := by
  simp [pfx]

theorem pfx_nil_right (q : FPath) : pfx q [] = true ↔ q = [] := by
  cases q <;> simp [pfx]

mutual

/-- A filesystem tree node: a regular file with content and timestamps
(`mtimeMs`-style rational milliseconds), a directory with its `readdir`
listing, or a non-file non-directory entry (symlink, socket, device);
for the latter, `statOk` tells whether `stat` succeeds on it. -/
inductive FNode where
  | file (content : String) (mtime atime : ℚ) : FNode
  | dir (children : FDir) : FNode
  | other (statOk : Bool) (mtime atime : ℚ) : FNode

/-- The ordered list of named entries of a directory. -/
inductive FDir where
  | nil : FDir
  | cons (name : String) (node : FNode) (rest : FDir) : FDir

end

/-- First entry with the given name, as `readdir`-based lookups see it. -/
def FDir.lookup : FDir → String → Option FNode
  | .nil, _ => none
  | .cons m node rest, n => if m = n then some node else rest.lookup n

/-- The directory listing as a plain list of pairs. -/
def FDir.toList : FDir → List (String × FNode)
  | .nil => []
  | .cons m node rest => (m, node) :: rest.toList

/-- Entry names in listing order. -/
def FDir.keys : FDir → List String
  | .nil => []
  | .cons m _ rest => m :: rest.keys

/-- Replace the first entry with the given name, or append a new entry. -/
def FDir.setEntry : FDir → String → FNode → FDir
  | .nil, n, v => .cons n v .nil
  | .cons m node rest, n, v =>
      if m = n then .cons m v rest else .cons m node (rest.setEntry n v)

/-- Remove every entry with the given name. -/
def FDir.eraseAll : FDir → String → FDir
  | .nil, _ => .nil
  | .cons m node rest, n =>
      if m = n then rest.eraseAll n else .cons m node (rest.eraseAll n)

/-- `Dirent.isFile()`: true only for a regular file dirent. -/
def FNode.isFile : FNode → Bool
  | .file .. => true
  | _ => false

/-- `Dirent.isDirectory()`: true only for a directory dirent. -/
def FNode.isDirectory : FNode → Bool
  | .dir _ => true
  | _ => false

/-- Result of a successful `stat` call. -/
structure StatInfo where
  isDir : Bool
  mtime : ℚ
  atime : ℚ
deriving DecidableEq

/-- `stat` on a node: succeeds on files and directories, and on `other`
entries exactly when `statOk` (it throws on a broken symlink).  Directory
timestamps are not tracked by the model (no modelled claim observes
them), so they are reported as `0`. -/
def statNode : FNode → Option StatInfo
  | .file _ m a => some ⟨false, m, a⟩
  | .dir _ => some ⟨true, 0, 0⟩
  | .other ok m a => if ok then some ⟨false, m, a⟩ else none

/-- Resolve a path in a tree, descending through directories only. -/
def getAt : FNode → FPath → Option FNode
  | t, [] => some t
  | .dir cs, n :: rest =>
      match cs.lookup n with
      | some c => getAt c rest
      | none => none
  | _, _ :: _ => none

/-- `stat` at a path. -/
def statAt (t : FNode) (p : FPath) : Option StatInfo :=
  (getAt t p).bind statNode

/-- `FsHelper.pathExists` (and `Validators.isPath`): try `stat`, report
whether it succeeded. -/
def pathExistsM (t : FNode) (p : FPath) : Bool :=
  (statAt t p).isSome

/-- Write a node at a path, replacing whatever entry is there; missing
intermediate components become fresh empty directories (the model only
invokes this after the parent chain has been validated, so the creating
branch is not exercised by successful runs). -/
def setAt : FNode → FPath → FNode → FNode
  | _, [], v => v
  | .dir cs, [n], v => .dir (cs.setEntry n v)
  | .dir cs, n :: rest, v =>
      .dir (cs.setEntry n (setAt ((cs.lookup n).getD (.dir .nil)) rest v))
  | t, _ :: _, _ => t

/-- Delete the entry at a path (both the plain and the recursive `rm`
remove the whole subtree of the model; the two are distinguished in the
operation trace, since plain `rm` on a directory throws and is modelled
as an error at its call sites). -/
def removeAt : FNode → FPath → FNode
  | t, [] => t
  | .dir cs, [n] => .dir (cs.eraseAll n)
  | .dir cs, n :: rest =>
      match cs.lookup n with
      | some c => .dir (cs.setEntry n (removeAt c rest))
      | none => .dir cs
  | t, _ :: _ => t

/-- `mkdir(p, { recursive: true })`: create every missing component as a
directory; fails if some component exists as a non-directory. -/
def mkdirRecM : FNode → FPath → Option FNode
  | .dir cs, [] => some (.dir cs)
  | _, [] => none
  | .dir cs, n :: rest =>
      match cs.lookup n with
      | some c => (mkdirRecM c rest).map (fun c2 => .dir (cs.setEntry n c2))
      | none => (mkdirRecM (.dir .nil) rest).map (fun c2 => .dir (cs.setEntry n c2))
  | _, _ :: _ => none

/-- JavaScript `Math.round`: the floor of the argument plus one half
(`Rat.floor` is used directly so that the definition evaluates). -/
def jsRound (x : ℚ) : ℤ := Rat.floor (x + 1 / 2)

theorem jsRound_eq_floor (x : ℚ) : jsRound x = Int.floor (x + 1 / 2) := rfl

theorem jsRound_zero : jsRound 0 = 0 := by
  rw [jsRound_eq_floor]
  norm_num

theorem jsRound_sub_self (m : ℚ) : (jsRound (m - m)).natAbs = 0 := by
  rw [sub_self, jsRound_zero]
  rfl

/-- Primitive destructive/creative filesystem calls, recorded in order.
`rm` is the plain unlink used for files, `rmRec` the recursive removal,
`mkdir` a recursive directory creation, `fsCopy` a full content write of
the target file, `utimes` the timestamp stamping that follows it. -/
inductive FsOp where
  | rm (p : FPath)
  | rmRec (p : FPath)
  | mkdir (p : FPath)
  | fsCopy (p : FPath)
  | utimes (p : FPath)
deriving DecidableEq

/-- Whether an operation deletes destination entries (cleanup phase)
rather than creating or writing them (copy phase). -/
def FsOp.isDelete : FsOp → Bool
  | .rm _ => true
  | .rmRec _ => true
  | _ => false

/-- `FsHelper.ensureDir`: return if the path can be read (in the
permission model of the engine this is exactly existence via `stat`),
otherwise `mkdir` it recursively. -/
def ensureDirM (d : FNode) (p : FPath) : Option (FNode × List FsOp) :=
  if pathExistsM d p then some (d, [])
  else (mkdirRecM d p).map (fun d2 => (d2, [FsOp.mkdir p]))

/-- The unconditional tail of `FsHelper.copyFile`: the `fs.copyFile`
content write followed by `stat` of the source and `utimes` on the
target.  It fails when the source is not a regular file, when the target
parent does not resolve to a directory, or when the target itself is a
directory (`EISDIR`). -/
def doCopyM (sN : FNode) (d : FNode) (tp : FPath) : Option (FNode × List FsOp) :=
  match sN with
  | .file c m a =>
      match tp with
      | [] => none
      | _ :: _ =>
          match getAt d tp.dropLast with
          | some (.dir _) =>
              match getAt d tp with
              | some (.dir _) => none
              | _ => some (setAt d tp (.file c m a), [FsOp.fsCopy tp, FsOp.utimes tp])
          | _ => none
  | _ => none

/-- `FsHelper.copyFile(source, target)`: ensure the target's parent
directory, and if the target exists compare the rounded difference of
the modification times, skipping the copy when it is zero; otherwise
copy the content and stamp the source's access and modification times
onto the target. -/
def copyFileNodeM (sN : FNode) (d : FNode) (tp : FPath) : Option (FNode × List FsOp) :=
  match ensureDirM d tp.dropLast with
  | none => none
  | some (d1, ops1) =>
      if pathExistsM d1 tp then
        match statNode sN with
        | none => none
        | some ss =>
            match statAt d1 tp with
            | none => none
            | some ts =>
                if (jsRound (ss.mtime - ts.mtime)).natAbs = 0 then some (d1, ops1)
                else (doCopyM sN d1 tp).map (fun r => (r.1, ops1 ++ r.2))
      else (doCopyM sN d1 tp).map (fun r => (r.1, ops1 ++ r.2))

mutual

/-- `FsHelper.copyDirectory(source, target)` with the source subtree
passed directly (the source tree is immutable during a run, so the
`readdir`/`stat` calls on source paths are resolved against it): ensure
the target directory, then walk the source listing. -/
def copyDirM (sN : FNode) (d : FNode) (tp : FPath) : Option (FNode × List FsOp) :=
  match sN with
  | .dir cs =>
      match ensureDirM d tp with
      | none => none
      | some (d1, ops1) => (copyListM cs d1 tp).map (fun r => (r.1, ops1 ++ r.2))
  | _ => none

/-- The entry loop of `copyDirectory`: each entry is `stat`-ed (which
throws on a broken symlink and propagates); a directory recurses, and
any other entry — regular file or not — is passed to `copyFile`. -/
def copyListM (cs : FDir) (d : FNode) (tp : FPath) : Option (FNode × List FsOp) :=
  match cs with
  | .nil => some (d, [])
  | .cons n (.dir ds) rest =>
      match copyDirM (.dir ds) d (tp ++ [n]) with
      | none => none
      | some (d1, ops1) => (copyListM rest d1 tp).map (fun r => (r.1, ops1 ++ r.2))
  | .cons n (.file c m a) rest =>
      match copyFileNodeM (.file c m a) d (tp ++ [n]) with
      | none => none
      | some (d1, ops1) => (copyListM rest d1 tp).map (fun r => (r.1, ops1 ++ r.2))
  | .cons n (.other ok m a) rest =>
      if ok then
        match copyFileNodeM (.other ok m a) d (tp ++ [n]) with
        | none => none
        | some (d1, ops1) => (copyListM rest d1 tp).map (fun r => (r.1, ops1 ++ r.2))
      else none

end

/-- The top-level copy loop of `NaiveSync.run`: it branches on the
dirent flags, so entries that are neither files nor directories are
skipped here (and only here). -/
def runCopyL : FDir → FNode → Option (FNode × List FsOp)
  | .nil, d => some (d, [])
  | .cons n (.dir ds) rest, d =>
      match copyDirM (.dir ds) d [n] with
      | none => none
      | some (d1, ops1) => (runCopyL rest d1).map (fun r => (r.1, ops1 ++ r.2))
  | .cons n (.file c m a) rest, d =>
      match copyFileNodeM (.file c m a) d [n] with
      | none => none
      | some (d1, ops1) => (runCopyL rest d1).map (fun r => (r.1, ops1 ++ r.2))
  | .cons _ (.other ..) rest, d => runCopyL rest d

mutual

/-- `NaiveSync._cleanupOutPath` on one destination directory node. -/
def cleanupN (src : FNode) (rel : FPath) : FNode → FNode × List FsOp
  | .dir cs =>
      let r := cleanupD src rel cs
      (.dir r.1, r.2)
  | t => (t, [])

/-- The entry loop of `_cleanupOutPath` over a destination listing at
relative path `rel`: an entry whose mapped source path exists is kept if
it is a file and recursed into if it is a directory; otherwise a
directory is removed recursively, a file with a plain `rm`, and an
entry of any other kind falls through both checks and is kept. -/
def cleanupD (src : FNode) (rel : FPath) : FDir → FDir × List FsOp
  | .nil => (.nil, [])
  | .cons n node rest =>
      if pathExistsM src (rel ++ [n]) && node.isFile then
        (.cons n node (cleanupD src rel rest).1, (cleanupD src rel rest).2)
      else if pathExistsM src (rel ++ [n]) && node.isDirectory then
        (.cons n (cleanupN src (rel ++ [n]) node).1 (cleanupD src rel rest).1,
          (cleanupN src (rel ++ [n]) node).2 ++ (cleanupD src rel rest).2)
      else if node.isDirectory then
        ((cleanupD src rel rest).1, FsOp.rmRec (rel ++ [n]) :: (cleanupD src rel rest).2)
      else if node.isFile then
        ((cleanupD src rel rest).1, FsOp.rm (rel ++ [n]) :: (cleanupD src rel rest).2)
      else (.cons n node (cleanupD src rel rest).1, (cleanupD src rel rest).2)

end

/-- `NaiveSync.run`: the cleanup sub-phase over the destination tree
runs to completion first, then the top-level source listing is copied.
`readdir` on a non-directory root throws. -/
def runM (src dst : FNode) : Option (FNode × List FsOp) :=
  match dst with
  | .dir dcs =>
      let c := cleanupD src [] dcs
      match src with
      | .dir scs => (runCopyL scs (.dir c.1)).map (fun r => (r.1, c.2 ++ r.2))
      | _ => none
  | _ => none

mutual

/-- Well-formedness of a tree as a real directory listing produces it:
names inside each directory are pairwise distinct. -/
def WFn : FNode → Bool
  | .dir cs => WFd cs
  | _ => true

/-- Well-formedness of a listing. -/
def WFd : FDir → Bool
  | .nil => true
  | .cons n node rest => (FDir.lookup rest n).isNone && WFn node && WFd rest

end

/-- `FsHelper.canRead`: existence via `stat`, then the `R_OK` access
probe; the latter is a boundary query modelled by the oracle `rOK`. -/
def canReadM (t : FNode) (rOK : FPath → Bool) (p : FPath) : Bool :=
  pathExistsM t p && rOK p

/-- `FsHelper.canWrite`: existence via `stat`, then the `W_OK` access
probe, modelled by the oracle `wOK`. -/
def canWriteM (t : FNode) (wOK : FPath → Bool) (p : FPath) : Bool :=
  pathExistsM t p && wOK p

/-- The mutable state of an `ActiveSync` instance: the protected `ready`
flag, whether a watcher is currently attached (`run` sets it, `abort`
closes it), and the destination tree it mutates. -/
structure ASt where
  ready : Bool
  watcherActive : Bool
  dest : FNode

/-- A fresh `ActiveSync` instance: `ready` starts `false`, no watcher. -/
def initA (d : FNode) : ASt :=
  { ready := false, watcherActive := false, dest := d }

/-- `ActiveSync.run`: attach the watcher. -/
def runA (st : ASt) : ASt :=
  { st with watcherActive := true }

/-- `ActiveSync.abort`: if a watcher exists, close it and detach the
mutation listeners.  The `ready` flag is not touched. -/
def abortA (st : ASt) : ASt :=
  if st.watcherActive then { st with watcherActive := false } else st

/-- `ActiveSync._readyHandler`: set the `ready` flag (and detach itself,
which has no further modelled effect). -/
def readyHandlerM (st : ASt) : ASt :=
  { st with ready := true }

/-- `ActiveSync._addHandler`: drop the event before `ready`; drop it if
the source path is unreadable; otherwise mirror the file with
`FsHelper.copyFile`.  `src` is the live source tree at the time the
handler runs, `p` the event path under the Relative Path Mapping. -/
def addHandlerM (rOK : FPath → Bool) (src : FNode) (st : ASt) (p : FPath) :
    Option (ASt × List FsOp) :=
  if st.ready = false then some (st, [])
  else if canReadM src rOK p = false then some (st, [])
  else
    match getAt src p with
    | some sN => (copyFileNodeM sN st.dest p).map (fun r => ({ st with dest := r.1 }, r.2))
    | none => some (st, [])

/-- `ActiveSync._addDirHandler`: as `_addHandler` but with
`FsHelper.copyDirectory`. -/
def addDirHandlerM (rOK : FPath → Bool) (src : FNode) (st : ASt) (p : FPath) :
    Option (ASt × List FsOp) :=
  if st.ready = false then some (st, [])
  else if canReadM src rOK p = false then some (st, [])
  else
    match getAt src p with
    | some sN => (copyDirM sN st.dest p).map (fun r => ({ st with dest := r.1 }, r.2))
    | none => some (st, [])

/-- `ActiveSync._changeHandler`: textually identical handling to
`_addHandler`, relying on `copyFile`'s own no-op check. -/
def changeHandlerM (rOK : FPath → Bool) (src : FNode) (st : ASt) (p : FPath) :
    Option (ASt × List FsOp) :=
  if st.ready = false then some (st, [])
  else if canReadM src rOK p = false then some (st, [])
  else
    match getAt src p with
    | some sN => (copyFileNodeM sN st.dest p).map (fun r => ({ st with dest := r.1 }, r.2))
    | none => some (st, [])

/-- `ActiveSync._unlinkHandler`: drop before `ready`; no-op if the mapped
destination entry does not exist or cannot be written; otherwise a plain
`rm` of the destination file (which throws if that entry is a
directory). -/
def unlinkHandlerM (wOK : FPath → Bool) (st : ASt) (p : FPath) :
    Option (ASt × List FsOp) :=
  if st.ready = false then some (st, [])
  else if pathExistsM st.dest p = false then some (st, [])
  else if canWriteM st.dest wOK p = false then some (st, [])
  else
    match getAt st.dest p with
    | some (.dir _) => none
    | _ => some ({ st with dest := removeAt st.dest p }, [FsOp.rm p])

/-- `ActiveSync._unlinkDirHandler`: same gating, recursive `rm`. -/
def unlinkDirHandlerM (wOK : FPath → Bool) (st : ASt) (p : FPath) :
    Option (ASt × List FsOp) :=
  if st.ready = false then some (st, [])
  else if pathExistsM st.dest p = false then some (st, [])
  else if canWriteM st.dest wOK p = false then some (st, [])
  else some ({ st with dest := removeAt st.dest p }, [FsOp.rmRec p])

/-- The events an `ActiveSync` instance reacts to: the five watcher
events, the one-time readiness signal, and the abort request. -/
inductive AEvent where
  | added (p : FPath)
  | addedDir (p : FPath)
  | changed (p : FPath)
  | removed (p : FPath)
  | removedDir (p : FPath)
  | readyEv
  | abortEv
deriving DecidableEq

/-- Whether an event is the readiness signal. -/
def AEvent.isReadyEv : AEvent → Bool
  | .readyEv => true
  | _ => false

/-- One dispatch of an event to the corresponding `ActiveSync` member. -/
def stepA (rOK wOK : FPath → Bool) (src : FNode) (st : ASt) :
    AEvent → Option (ASt × List FsOp)
  | .added p => addHandlerM rOK src st p
  | .addedDir p => addDirHandlerM rOK src st p
  | .changed p => changeHandlerM rOK src st p
  | .removed p => unlinkHandlerM wOK st p
  | .removedDir p => unlinkDirHandlerM wOK st p
  | .readyEv => some (readyHandlerM st, [])
  | .abortEv => some (abortA st, [])

/-- The per-instance state of `NaiveSync`: only the advisory `aborted`
marker. -/
structure NaiveState where
  aborted : Bool
deriving DecidableEq

/-- `NaiveSync.abort`: set the marker. -/
def naiveAbort (_ : NaiveState) : NaiveState :=
  { aborted := true }

/-- `NaiveSync.run` as a member of an instance carrying the abort
marker: the body never consults `aborted` — neither `_cleanupOutPath`
nor the copy loop contains a check — so the result is that of `runM`
whatever the marker holds. -/
def naiveRunM (_ : NaiveState) (src dst : FNode) : Option (FNode × List FsOp) :=
  runM src dst

/-- The phase sequencing of the orchestrator `Sync.run` (after the
argument validation it delegates): run the initial reconciliation, then
— only if the `aborted` flag is still clear — construct and start the
`ActiveSync` watcher.  The boolean argument records whether `abort()`
was invoked before the initial reconciliation returned; the boolean in
the result records whether the watcher was started. -/
def syncRunM (abortedBeforeNaiveReturn : Bool) (src dst : FNode) :
    Option (FNode × List FsOp × Bool) :=
  match runM src dst with
  | none => none
  | some (d, ops) =>
      if abortedBeforeNaiveReturn then some (d, ops, false)
      else some (d, ops, true)

/-- Induction on a directory listing alone (the entry nodes are treated
as opaque), avoiding the mutual eliminator. -/
def FDir.recList {motive : FDir → Sort u} (hnil : motive .nil)
    (hcons : (m : String) → (node : FNode) → (rest : FDir) → motive rest →
      motive (.cons m node rest)) : (cs : FDir) → motive cs
  | .nil => hnil
  | .cons m node rest => hcons m node rest (FDir.recList hnil hcons rest)

theorem getAt_dirChildren (cs : FDir) (n : String) :
    getAt (.dir cs) [n] = cs.lookup n := by
  cases h : cs.lookup n with
  | none => simp [getAt, h]
  | some c => simp [getAt, h]

theorem getAt_append (t : FNode) (p q : FPath) :
    getAt t (p ++ q) = (getAt t p).bind (fun c => getAt c q) := by
  induction p generalizing t with
  | nil => simp [getAt]
  | cons n p ih =>
    cases t with
    | dir cs =>
      simp only [List.cons_append, getAt]
      cases cs.lookup n with
      | none => simp
      | some c => simpa using ih c
    | file c m a => simp [getAt]
    | other ok m a => simp [getAt]

theorem getAt_chain_dir (t : FNode) (p : FPath) (n : String) (q : FPath) (v : FNode)
    (h : getAt t (p ++ n :: q) = some v) : ∃ cs, getAt t p = some (.dir cs) := by
  rw [getAt_append] at h
  cases hc : getAt t p with
  | none => rw [hc] at h; simp at h
  | some c =>
    rw [hc] at h
    simp only [Option.some_bind] at h
    cases c with
    | dir cs => exact ⟨cs, rfl⟩
    | file c m a => simp [getAt] at h
    | other ok m a => simp [getAt] at h

theorem pathExistsM_dropLast_of_statAt (t : FNode) (p : FPath) (s : StatInfo)
    (h : statAt t p = some s) : pathExistsM t p.dropLast = true := by
  rcases List.eq_nil_or_concat p with rfl | ⟨p', n, rfl⟩
  · simp only [List.dropLast_nil, pathExistsM, h, Option.isSome_some]
  · simp only [List.concat_eq_append] at h ⊢
    have h2 : ∃ v, getAt t (p' ++ [n]) = some v := by
      simp only [statAt] at h
      cases hg : getAt t (p' ++ [n]) with
      | none => rw [hg] at h; simp at h
      | some c => exact ⟨c, rfl⟩
    obtain ⟨v, hv⟩ := h2
    obtain ⟨cs, hcs⟩ := getAt_chain_dir t p' n [] v hv
    simp [pathExistsM, statAt, hcs, statNode]

theorem FDir.lookup_setEntry_self (cs : FDir) (n : String) (v : FNode) :
    (cs.setEntry n v).lookup n = some v := by
  induction cs using FDir.recList with
  | hnil => simp [FDir.setEntry, FDir.lookup]
  | hcons m node rest ih =>
    by_cases h : m = n
    · simp [FDir.setEntry, h, FDir.lookup]
    · simp [FDir.setEntry, h, FDir.lookup, ih]

theorem FDir.lookup_setEntry_ne (cs : FDir) (n m : String) (v : FNode) (h : m ≠ n) :
    (cs.setEntry n v).lookup m = cs.lookup m := by
  induction cs using FDir.recList with
  | hnil =>
    simp only [FDir.setEntry, FDir.lookup]
    rw [if_neg (fun hh : n = m => h hh.symm)]
  | hcons k node rest ih =>
    by_cases hk : k = n
    · have hkm : k ≠ m := fun hh => h (hh ▸ hk)
      simp only [FDir.setEntry, if_pos hk, FDir.lookup, if_neg hkm]
    · simp only [FDir.setEntry, if_neg hk, FDir.lookup, ih]

theorem FDir.setEntry_lookup_self_eq (cs : FDir) (n : String) (c : FNode)
    (h : cs.lookup n = some c) : cs.setEntry n c = cs := by
  induction cs using FDir.recList with
  | hnil => simp [FDir.lookup] at h
  | hcons m node rest ih =>
    by_cases hm : m = n
    · subst hm
      have h2 : node = c := by simpa [FDir.lookup] using h
      subst h2
      simp [FDir.setEntry]
    · simp only [FDir.lookup, if_neg hm] at h
      simp [FDir.setEntry, hm, ih h]

theorem FDir.lookup_eraseAll_self (cs : FDir) (n : String) :
    (cs.eraseAll n).lookup n = none := by
  induction cs using FDir.recList with
  | hnil => simp [FDir.eraseAll, FDir.lookup]
  | hcons m node rest ih =>
    by_cases h : m = n <;> simp [FDir.eraseAll, h, FDir.lookup, ih]

theorem FDir.lookup_eraseAll_ne (cs : FDir) (n m : String) (h : m ≠ n) :
    (cs.eraseAll n).lookup m = cs.lookup m := by
  induction cs using FDir.recList with
  | hnil => simp [FDir.eraseAll]
  | hcons k node rest ih =>
    by_cases hk : k = n
    · have hkm : k ≠ m := fun hh => h (hh ▸ hk)
      simp only [FDir.eraseAll, if_pos hk, FDir.lookup, if_neg hkm, ih]
    · simp only [FDir.eraseAll, if_neg hk, FDir.lookup, ih]

theorem WFd_lookup (cs : FDir) (n : String) (c : FNode)
    (hwf : WFd cs = true) (h : cs.lookup n = some c) : WFn c = true := by
  induction cs using FDir.recList with
  | hnil => simp [FDir.lookup] at h
  | hcons m node rest ih =>
    simp only [WFd, Bool.and_eq_true] at hwf
    by_cases hm : m = n
    · simp only [FDir.lookup, if_pos hm, Option.some_inj] at h
      exact h ▸ hwf.1.2
    · simp only [FDir.lookup, if_neg hm] at h
      exact ih hwf.2 h

theorem WFn_getAt (t : FNode) (p : FPath) (c : FNode)
    (hwf : WFn t = true) (h : getAt t p = some c) : WFn c = true := by
  induction p generalizing t with
  | nil => simp only [getAt, Option.some_inj] at h; exact h ▸ hwf
  | cons n p ih =>
    cases t with
    | dir cs =>
      simp only [getAt] at h
      cases hl : cs.lookup n with
      | none => rw [hl] at h; simp at h
      | some c1 =>
        rw [hl] at h
        exact ih c1 (WFd_lookup cs n c1 (by simpa [WFn] using hwf) hl) h
    | file cc m a => simp [getAt] at h
    | other ok m a => simp [getAt] at h

theorem setAt_get_self (tp : FPath) (d v : FNode)
    (hpar : ∃ pcs, getAt d tp.dropLast = some (.dir pcs)) :
    getAt (setAt d tp v) tp = some v := by
  induction tp generalizing d with
  | nil => simp [setAt, getAt]
  | cons n rest ih =>
    obtain ⟨pcs, hp⟩ := hpar
    cases rest with
    | nil =>
      simp only [List.dropLast_single, getAt, Option.some_inj] at hp
      subst hp
      simp [setAt, getAt, FDir.lookup_setEntry_self]
    | cons r rs =>
      rw [List.dropLast_cons_of_ne_nil (by simp)] at hp
      cases d with
      | dir cs =>
        simp only [getAt] at hp
        cases hl : cs.lookup n with
        | none => rw [hl] at hp; simp at hp
        | some c =>
          rw [hl] at hp
          simp only [setAt, hl, Option.getD_some, getAt, FDir.lookup_setEntry_self]
          exact ih c ⟨pcs, hp⟩
      | file cc m a => simp [getAt] at hp
      | other ok m a => simp [getAt] at hp

theorem setAt_frame (tp : FPath) (d v : FNode) (q : FPath)
    (h1 : ¬ pfx tp q = true) (h2 : ¬ pfx q tp = true) :
    getAt (setAt d tp v) q = getAt d q := by
  induction tp generalizing d q with
  | nil => exact absurd rfl h1
  | cons n rest ih =>
    cases q with
    | nil => exact absurd rfl h2
    | cons m qr =>
      cases d with
      | dir cs =>
        by_cases hmn : m = n
        · subst hmn
          have h1' : ¬ pfx rest qr = true := by simpa [pfx] using h1
          have h2' : ¬ pfx qr rest = true := by simpa [pfx] using h2
          cases rest with
          | nil => exact absurd rfl h1'
          | cons r rs =>
            cases hl : cs.lookup m with
            | some c =>
              simp only [setAt, hl, Option.getD_some, getAt, FDir.lookup_setEntry_self]
              exact ih c qr h1' h2'
            | none =>
              simp only [setAt, hl, Option.getD_none, getAt, FDir.lookup_setEntry_self, hl]
              rw [ih (.dir .nil) qr h1' h2']
              cases qr with
              | nil => exact absurd rfl h2'
              | cons x xs => simp [getAt, FDir.lookup]
        · cases rest with
          | nil =>
            simp only [setAt, getAt]
            rw [FDir.lookup_setEntry_ne cs n m v hmn]
          | cons r rs =>
            simp only [setAt, getAt]
            rw [FDir.lookup_setEntry_ne _ n m _ hmn]
      | file cc mm a => simp [setAt]
      | other ok mm a => simp [setAt]

theorem setAt_get_cases (tp : FPath) (d v : FNode) (q : FPath) (node : FNode)
    (h : getAt (setAt d tp v) q = some node) :
    getAt d q = some node ∨
    (∃ qs, q = tp ++ qs ∧ getAt v qs = some node) ∨
    (pfx q tp = true ∧ q ≠ tp ∧ ∃ cs2, node = .dir cs2) := by
  induction tp generalizing d q with
  | nil => exact Or.inr (Or.inl ⟨q, rfl, by simpa [setAt] using h⟩)
  | cons n rest ih =>
    cases d with
    | file cc m a => simp only [setAt] at h; exact Or.inl h
    | other ok m a => simp only [setAt] at h; exact Or.inl h
    | dir cs =>
      cases rest with
      | nil =>
        cases q with
        | nil =>
          simp only [setAt, getAt, Option.some_inj] at h
          exact Or.inr (Or.inr ⟨rfl, by simp, _, h.symm⟩)
        | cons m qr =>
          by_cases hmn : m = n
          · subst hmn
            simp only [setAt, getAt, FDir.lookup_setEntry_self] at h
            cases qr with
            | nil =>
              simp only [getAt, Option.some_inj] at h
              exact Or.inr (Or.inl ⟨[], by simp, by simp [getAt, h]⟩)
            | cons x xs =>
              exact Or.inr (Or.inl ⟨x :: xs, by simp, h⟩)
          · simp only [setAt, getAt] at h
            rw [FDir.lookup_setEntry_ne cs n m v hmn] at h
            exact Or.inl (by simpa [getAt] using h)
      | cons r rs =>
        cases q with
        | nil =>
          simp only [setAt, getAt, Option.some_inj] at h
          exact Or.inr (Or.inr ⟨rfl, by simp, _, h.symm⟩)
        | cons m qr =>
          by_cases hmn : m = n
          · subst hmn
            simp only [setAt, getAt, FDir.lookup_setEntry_self] at h
            cases hl : cs.lookup m with
            | some c =>
              rw [hl] at h
              simp only [Option.getD_some] at h
              rcases ih c qr h with h3 | ⟨qs, rfl, h3⟩ | ⟨h3, h4, cs2, rfl⟩
              · exact Or.inl (by simp [getAt, hl, h3])
              · exact Or.inr (Or.inl ⟨qs, by simp, h3⟩)
              · refine Or.inr (Or.inr ⟨by simp [pfx, h3], ?_, cs2, rfl⟩)
                simp only [ne_eq, List.cons.injEq, not_and]
                intro _
                exact h4
            | none =>
              rw [hl] at h
              simp only [Option.getD_none] at h
              rcases ih (.dir .nil) qr h with h3 | ⟨qs, rfl, h3⟩ | ⟨h3, h4, cs2, rfl⟩
              · cases qr with
                | nil =>
                  simp only [getAt, Option.some_inj] at h3
                  refine Or.inr (Or.inr ⟨by simp [pfx], by simp, .nil, h3.symm⟩)
                | cons x xs => simp [getAt, FDir.lookup] at h3
              · exact Or.inr (Or.inl ⟨qs, by simp, h3⟩)
              · refine Or.inr (Or.inr ⟨by simp [pfx, h3], ?_, cs2, rfl⟩)
                simp only [ne_eq, List.cons.injEq, not_and]
                intro _
                exact h4
          · simp only [setAt, getAt] at h
            rw [FDir.lookup_setEntry_ne _ n m _ hmn] at h
            exact Or.inl (by simpa [getAt] using h)

theorem setAt_chain_dir (tp : FPath) (d v : FNode) (q : FPath) (cs : FDir)
    (hq : pfx q tp = true) (hne : q ≠ tp) (h : getAt d q = some (.dir cs)) :
    ∃ cs2, getAt (setAt d tp v) q = some (.dir cs2) := by
  induction tp generalizing d q cs with
  | nil => exact absurd ((pfx_nil_right q).mp hq) hne
  | cons n rest ih =>
    cases q with
    | nil =>
      have hd : d = .dir cs := by simpa [getAt] using h
      subst hd
      cases rest with
      | nil => exact ⟨cs.setEntry n v, by simp [setAt, getAt]⟩
      | cons r rs =>
        exact ⟨cs.setEntry n (setAt ((cs.lookup n).getD (.dir .nil)) (r :: rs) v),
          by simp [setAt, getAt]⟩
    | cons m qr =>
      have hm : m = n := by
        by_contra hc
        simp [pfx, hc] at hq
      subst hm
      have hq' : pfx qr rest = true := by simpa [pfx] using hq
      cases d with
      | file cc mm a => simp [getAt] at h
      | other ok mm a => simp [getAt] at h
      | dir cs0 =>
        simp only [getAt] at h
        cases hl : cs0.lookup m with
        | none => rw [hl] at h; simp at h
        | some c =>
          rw [hl] at h
          cases rest with
          | nil =>
            have hqr : qr = [] := (pfx_nil_right qr).mp hq'
            subst hqr
            simp at hne
          | cons r rs =>
            have hne' : qr ≠ r :: rs := fun hh => hne (by rw [hh])
            obtain ⟨cs2, h2⟩ := ih c qr cs hq' hne' h
            refine ⟨cs2, ?_⟩
            simp only [setAt, hl, Option.getD_some, getAt, FDir.lookup_setEntry_self]
            exact h2

theorem removeAt_get_self (p : FPath) (d w : FNode)
    (h : getAt d p = some w) (hne : p ≠ []) :
    getAt (removeAt d p) p = none := by
  induction p generalizing d w with
  | nil => exact absurd rfl hne
  | cons n rest ih =>
    cases d with
    | file cc m a => simp [getAt] at h
    | other ok m a => simp [getAt] at h
    | dir cs =>
      simp only [getAt] at h
      cases hl : cs.lookup n with
      | none => rw [hl] at h; simp at h
      | some c =>
        rw [hl] at h
        cases rest with
        | nil =>
          simp [removeAt, getAt, FDir.lookup_eraseAll_self]
        | cons r rs =>
          simp only [removeAt, hl, getAt, FDir.lookup_setEntry_self]
          exact ih c w h (by simp)

theorem removeAt_frame (p : FPath) (d : FNode) (q : FPath)
    (h1 : ¬ pfx p q = true) (h2 : ¬ pfx q p = true) :
    getAt (removeAt d p) q = getAt d q := by
  induction p generalizing d q with
  | nil => simp [removeAt]
  | cons n rest ih =>
    cases q with
    | nil => exact absurd rfl h2
    | cons m qr =>
      cases d with
      | file cc mm a => simp [removeAt]
      | other ok mm a => simp [removeAt]
      | dir cs =>
        by_cases hmn : m = n
        · subst hmn
          have h1' : ¬ pfx rest qr = true := by simpa [pfx] using h1
          have h2' : ¬ pfx qr rest = true := by simpa [pfx] using h2
          cases rest with
          | nil => exact absurd rfl h1'
          | cons r rs =>
            cases hl : cs.lookup m with
            | none => simp [removeAt, hl]
            | some c =>
              simp only [removeAt, hl, getAt, FDir.lookup_setEntry_self]
              exact ih c qr h1' h2'
        · cases rest with
          | nil =>
            simp only [removeAt, getAt]
            rw [FDir.lookup_eraseAll_ne cs n m hmn]
          | cons r rs =>
            cases hl : cs.lookup n with
            | none => simp [removeAt, hl]
            | some c =>
              simp only [removeAt, hl, getAt]
              rw [FDir.lookup_setEntry_ne _ n m _ hmn]

theorem removeAt_chain_dir (p : FPath) (d : FNode) (q : FPath) (cs : FDir)
    (hq : pfx q p = true) (hne : q ≠ p) (h : getAt d q = some (.dir cs)) :
    ∃ cs2, getAt (removeAt d p) q = some (.dir cs2) := by
  induction p generalizing d q cs with
  | nil => exact absurd ((pfx_nil_right q).mp hq) hne
  | cons n rest ih =>
    cases q with
    | nil =>
      have hd : d = .dir cs := by simpa [getAt] using h
      subst hd
      cases rest with
      | nil => exact ⟨cs.eraseAll n, by simp [removeAt, getAt]⟩
      | cons r rs =>
        cases hl : cs.lookup n with
        | none => exact ⟨cs, by simp [removeAt, hl, getAt]⟩
        | some c =>
          exact ⟨cs.setEntry n (removeAt c (r :: rs)), by simp [removeAt, hl, getAt]⟩
    | cons m qr =>
      have hm : m = n := by
        by_contra hc
        simp [pfx, hc] at hq
      subst hm
      have hq' : pfx qr rest = true := by simpa [pfx] using hq
      cases d with
      | file cc mm a => simp [getAt] at h
      | other ok mm a => simp [getAt] at h
      | dir cs0 =>
        simp only [getAt] at h
        cases hl : cs0.lookup m with
        | none => rw [hl] at h; simp at h
        | some c =>
          rw [hl] at h
          cases rest with
          | nil =>
            have hqr : qr = [] := (pfx_nil_right qr).mp hq'
            subst hqr
            simp at hne
          | cons r rs =>
            have hne' : qr ≠ r :: rs := fun hh => hne (by rw [hh])
            obtain ⟨cs2, h2⟩ := ih c qr cs hq' hne' h
            refine ⟨cs2, ?_⟩
            simp only [removeAt, hl, getAt, FDir.lookup_setEntry_self]
            exact h2

theorem mkdirRecM_exists_dir (tgt : FPath) (d : FNode) (x : FDir)
    (h : getAt d tgt = some (.dir x)) : mkdirRecM d tgt = some d := by
  induction tgt generalizing d x with
  | nil =>
    have hd : d = .dir x := by simpa [getAt] using h
    subst hd
    simp [mkdirRecM]
  | cons n rest ih =>
    cases d with
    | file cc m a => simp [getAt] at h
    | other ok m a => simp [getAt] at h
    | dir cs =>
      simp only [getAt] at h
      cases hl : cs.lookup n with
      | none => rw [hl] at h; simp at h
      | some c =>
        rw [hl] at h
        simp only [mkdirRecM, hl, ih c x h, Option.map_some', Option.some_inj]
        rw [FDir.setEntry_lookup_self_eq cs n c hl]

theorem mkdirRecM_frame (tgt : FPath) (d d2 : FNode) (q : FPath)
    (h : mkdirRecM d tgt = some d2) (hq : ¬ pfx q tgt = true) :
    getAt d2 q = getAt d q := by
  induction tgt generalizing d d2 q with
  | nil =>
    cases d with
    | dir cs => simp only [mkdirRecM, Option.some_inj] at h; rw [h]
    | file cc m a => simp [mkdirRecM] at h
    | other ok m a => simp [mkdirRecM] at h
  | cons n rest ih =>
    cases d with
    | file cc m a => simp [mkdirRecM] at h
    | other ok m a => simp [mkdirRecM] at h
    | dir cs =>
      cases q with
      | nil => exact absurd rfl hq
      | cons m qr =>
        simp only [mkdirRecM] at h
        cases hl : cs.lookup n with
        | some c =>
          rw [hl] at h
          have h' : Option.map (fun c2 => FNode.dir (cs.setEntry n c2)) (mkdirRecM c rest)
              = some d2 := h
          cases hm : mkdirRecM c rest with
          | none => rw [hm] at h'; simp at h'
          | some c2 =>
            rw [hm] at h'
            simp only [Option.map_some', Option.some_inj] at h'
            subst h' 
            by_cases hmn : m = n
            · subst hmn
              have hq' : ¬ pfx qr rest = true := by simpa [pfx] using hq
              simp only [getAt, FDir.lookup_setEntry_self, hl]
              exact ih c c2 qr hm hq'
            · simp only [getAt]
              rw [FDir.lookup_setEntry_ne _ n m _ hmn]
        | none =>
          rw [hl] at h
          have h' : Option.map (fun c2 => FNode.dir (cs.setEntry n c2))
              (mkdirRecM (FNode.dir FDir.nil) rest) = some d2 := h
          cases hm : mkdirRecM (.dir .nil) rest with
          | none => rw [hm] at h'; simp at h'
          | some c2 =>
            rw [hm] at h'
            simp only [Option.map_some', Option.some_inj] at h'
            subst h' 
            by_cases hmn : m = n
            · subst hmn
              have hq' : ¬ pfx qr rest = true := by simpa [pfx] using hq
              simp only [getAt, FDir.lookup_setEntry_self, hl]
              rw [ih (.dir .nil) c2 qr hm hq']
              cases qr with
              | nil => exact absurd rfl hq'
              | cons x xs => simp [getAt, FDir.lookup]
            · simp only [getAt]
              rw [FDir.lookup_setEntry_ne _ n m _ hmn]

theorem mkdirRecM_chain (tgt : FPath) (d d2 : FNode) (q : FPath)
    (h : mkdirRecM d tgt = some d2) (hq : pfx q tgt = true) :
    ∃ cs2, getAt d2 q = some (.dir cs2) := by
  induction tgt generalizing d d2 q with
  | nil =>
    have hql : q = [] := (pfx_nil_right q).mp hq
    subst hql
    cases d with
    | dir cs =>
      simp only [mkdirRecM, Option.some_inj] at h
      exact ⟨cs, by rw [h.symm]; simp [getAt]⟩
    | file cc m a => simp [mkdirRecM] at h
    | other ok m a => simp [mkdirRecM] at h
  | cons n rest ih =>
    cases d with
    | file cc m a => simp [mkdirRecM] at h
    | other ok m a => simp [mkdirRecM] at h
    | dir cs =>
      simp only [mkdirRecM] at h
      cases hl : cs.lookup n with
      | some c =>
        rw [hl] at h
        have h' : Option.map (fun c2 => FNode.dir (cs.setEntry n c2)) (mkdirRecM c rest)
            = some d2 := h
        cases hm : mkdirRecM c rest with
        | none => rw [hm] at h'; simp at h'
        | some c2 =>
          rw [hm] at h'
          simp only [Option.map_some', Option.some_inj] at h'
          subst h'
          cases q with
          | nil => exact ⟨cs.setEntry n c2, by simp [getAt]⟩
          | cons m qr =>
            have hmn : m = n := by
              by_contra hc
              simp [pfx, hc] at hq
            subst hmn
            have hq' : pfx qr rest = true := by simpa [pfx] using hq
            obtain ⟨cs2, h3⟩ := ih c c2 qr hm hq'
            exact ⟨cs2, by simpa [getAt, FDir.lookup_setEntry_self] using h3⟩
      | none =>
        rw [hl] at h
        have h' : Option.map (fun c2 => FNode.dir (cs.setEntry n c2))
            (mkdirRecM (FNode.dir FDir.nil) rest) = some d2 := h
        cases hm : mkdirRecM (.dir .nil) rest with
        | none => rw [hm] at h'; simp at h'
        | some c2 =>
          rw [hm] at h'
          simp only [Option.map_some', Option.some_inj] at h'
          subst h'
          cases q with
          | nil => exact ⟨cs.setEntry n c2, by simp [getAt]⟩
          | cons m qr =>
            have hmn : m = n := by
              by_contra hc
              simp [pfx, hc] at hq
            subst hmn
            have hq' : pfx qr rest = true := by simpa [pfx] using hq
            obtain ⟨cs2, h3⟩ := ih (.dir .nil) c2 qr hm hq'
            exact ⟨cs2, by simpa [getAt, FDir.lookup_setEntry_self] using h3⟩

theorem mkdirRecM_get_cases (tgt : FPath) (d d2 : FNode) (q : FPath) (node : FNode)
    (h : mkdirRecM d tgt = some d2) (hg : getAt d2 q = some node) :
    getAt d q = some node ∨ (pfx q tgt = true ∧ ∃ cs2, node = .dir cs2) := by
  by_cases hq : pfx q tgt = true
  · right
    refine ⟨hq, ?_⟩
    obtain ⟨cs2, h2⟩ := mkdirRecM_chain tgt d d2 q h hq
    rw [hg] at h2
    exact ⟨cs2, by simpa using h2⟩
  · left
    rw [mkdirRecM_frame tgt d d2 q h hq] at hg
    exact hg

/-- Unfolding of `ensureDirM` when the path already exists. -/
theorem ensureDirM_exists (d : FNode) (p : FPath) (h : pathExistsM d p = true) :
    ensureDirM d p = some (d, []) := by
  simp [ensureDirM, h]

theorem ensureDirM_cases (d : FNode) (p : FPath) (d1 : FNode) (ops1 : List FsOp)
    (h : ensureDirM d p = some (d1, ops1)) :
    (pathExistsM d p = true ∧ d1 = d ∧ ops1 = []) ∨
    (pathExistsM d p = false ∧ mkdirRecM d p = some d1 ∧ ops1 = [FsOp.mkdir p]) := by
  by_cases hp : pathExistsM d p = true
  · left
    rw [ensureDirM_exists d p hp] at h
    simp only [Option.some_inj, Prod.mk.injEq] at h
    exact ⟨hp, h.1.symm, h.2.symm⟩
  · right
    simp only [ensureDirM, if_neg hp] at h
    cases hm : mkdirRecM d p with
    | none => rw [hm] at h; simp at h
    | some dd =>
      rw [hm] at h
      simp only [Option.map_some', Option.some_inj, Prod.mk.injEq] at h
      exact ⟨by simpa using hp, by rw [h.1], h.2.symm⟩

theorem pfx_trans (p q r : FPath) (h1 : pfx p q = true) (h2 : pfx q r = true) :
    pfx p r = true := by
  rw [pfx_iff] at h1 h2 ⊢
  obtain ⟨a, rfl⟩ := h1
  obtain ⟨b, rfl⟩ := h2
  exact ⟨a ++ b, by simp⟩

theorem pfx_dropLast (p : FPath) : pfx p.dropLast p = true := by
  induction p with
  | nil => simp [pfx]
  | cons a q ih =>
    cases q with
    | nil => simp [pfx]
    | cons b r => simpa [pfx, List.dropLast] using ih

theorem pfx_length_le (p q : FPath) (h : pfx p q = true) : p.length ≤ q.length := by
  rw [pfx_iff] at h
  obtain ⟨r, rfl⟩ := h
  simp

theorem pfx_antisymm (p q : FPath) (h1 : pfx p q = true) (h2 : pfx q p = true) :
    p = q := by
  rw [pfx_iff] at h1 h2
  obtain ⟨a, rfl⟩ := h1
  obtain ⟨b, hb⟩ := h2
  have hlen := congrArg List.length hb
  simp only [List.length_append] at hlen
  have ha : a.length = 0 := by omega
  have ha2 : a = [] := List.length_eq_zero.mp ha
  rw [ha2, List.append_nil]

theorem pfx_snoc_inj (tp : FPath) (n m : String) (q : FPath)
    (h1 : pfx (tp ++ [n]) q = true) (h2 : pfx (tp ++ [m]) q = true) : n = m := by
  rw [pfx_iff] at h1 h2
  obtain ⟨a, rfl⟩ := h1
  obtain ⟨b, hb⟩ := h2
  have h3 : tp ++ [m] ++ b = tp ++ [n] ++ a := hb.symm
  simp only [List.append_assoc, List.append_cancel_left_eq, List.singleton_append,
    List.cons.injEq] at h3
  exact h3.1.symm

/-- A proper prefix of an existing path resolves to a directory. -/
theorem src_chain_exists (src : FNode) (tp : FPath) (sN : FNode) (q : FPath)
    (h : getAt src tp = some sN) (hq : pfx q tp = true) (hne : q ≠ tp) :
    pathExistsM src q = true := by
  rw [pfx_iff] at hq
  obtain ⟨r, rfl⟩ := hq
  cases r with
  | nil => simp at hne
  | cons x xs =>
    obtain ⟨cs, hcs⟩ := getAt_chain_dir src q x xs sN h
    simp [pathExistsM, statAt, hcs, statNode]

/-- A prefix (possibly improper) of an existing stat-able path exists. -/
theorem src_pfx_exists (src : FNode) (tp : FPath) (sN : FNode) (q : FPath)
    (h : getAt src tp = some sN) (hs : (statNode sN).isSome = true)
    (hq : pfx q tp = true) : pathExistsM src q = true := by
  by_cases hne : q = tp
  · subst hne
    simp only [pathExistsM, statAt, h, Option.bind_some]
    exact hs
  · exact src_chain_exists src tp sN q h hq hne

theorem doCopyM_inv (sN d : FNode) (tp : FPath) (d2 : FNode) (ops : List FsOp)
    (h : doCopyM sN d tp = some (d2, ops)) :
    ∃ c m a pcs, sN = .file c m a ∧ tp ≠ [] ∧
      getAt d tp.dropLast = some (.dir pcs) ∧
      (∀ tcs, getAt d tp ≠ some (.dir tcs)) ∧
      d2 = setAt d tp (.file c m a) ∧ ops = [FsOp.fsCopy tp, FsOp.utimes tp] := by
  cases sN with
  | dir cs => simp [doCopyM] at h
  | other ok m a => simp [doCopyM] at h
  | file c m a =>
    cases tp with
    | nil => simp [doCopyM] at h
    | cons x xs =>
      simp only [doCopyM] at h
      cases hp : getAt d (x :: xs).dropLast with
      | none => rw [hp] at h; simp at h
      | some pn =>
        rw [hp] at h
        cases pn with
        | file c2 m2 a2 => simp at h
        | other ok2 m2 a2 => simp at h
        | dir pcs =>
          have hkey : d2 = setAt d (x :: xs) (.file c m a) ∧
              ops = [FsOp.fsCopy (x :: xs), FsOp.utimes (x :: xs)] := by
            cases ht : getAt d (x :: xs) with
            | none =>
              rw [ht] at h
              have h4 := Option.some.inj h
              exact ⟨(congrArg Prod.fst h4).symm, (congrArg Prod.snd h4).symm⟩
            | some tn =>
              cases tn with
              | dir tcs => rw [ht] at h; simp at h
              | file c3 m3 a3 =>
                rw [ht] at h
                have h4 := Option.some.inj h
                exact ⟨(congrArg Prod.fst h4).symm, (congrArg Prod.snd h4).symm⟩
              | other ok3 m3 a3 =>
                rw [ht] at h
                have h4 := Option.some.inj h
                exact ⟨(congrArg Prod.fst h4).symm, (congrArg Prod.snd h4).symm⟩
          refine ⟨c, m, a, pcs, rfl, by simp, rfl, ?_, hkey.1, hkey.2⟩
          intro tcs hct
          rw [hct] at h
          simp at h

theorem copyFileNodeM_inv (sN d : FNode) (tp : FPath) (d2 : FNode) (ops : List FsOp)
    (h : copyFileNodeM sN d tp = some (d2, ops)) :
    ∃ d1 ops1, ensureDirM d tp.dropLast = some (d1, ops1) ∧
      ((pathExistsM d1 tp = true ∧
          ∃ ss ts, statNode sN = some ss ∧ statAt d1 tp = some ts ∧
            (((jsRound (ss.mtime - ts.mtime)).natAbs = 0 ∧ d2 = d1 ∧ ops = ops1) ∨
             ((jsRound (ss.mtime - ts.mtime)).natAbs ≠ 0 ∧
               ∃ r2, doCopyM sN d1 tp = some (d2, r2) ∧ ops = ops1 ++ r2))) ∨
       (pathExistsM d1 tp = false ∧
         ∃ r2, doCopyM sN d1 tp = some (d2, r2) ∧ ops = ops1 ++ r2)) := by
  unfold copyFileNodeM at h
  split at h
  · simp at h
  · rename_i p1 d1 ops1 he
    refine ⟨d1, ops1, he, ?_⟩
    split at h
    · rename_i hp
      left
      refine ⟨hp, ?_⟩
      split at h
      · simp at h
      · rename_i ss hss
        split at h
        · simp at h
        · rename_i ts hts
          refine ⟨ss, ts, hss, hts, ?_⟩
          split at h
          · rename_i hz
            simp only [Option.some_inj, Prod.mk.injEq] at h
            exact Or.inl ⟨hz, h.1.symm, h.2.symm⟩
          · rename_i hz
            cases hd : doCopyM sN d1 tp with
            | none => rw [hd] at h; simp at h
            | some r =>
              rw [hd] at h
              simp only [Option.map_some', Option.some_inj, Prod.mk.injEq] at h
              exact Or.inr ⟨hz, r.2, by { rw [← h.1]; try exact hd }, h.2.symm⟩
    · rename_i hp
      right
      refine ⟨by simpa using hp, ?_⟩
      cases hd : doCopyM sN d1 tp with
      | none => rw [hd] at h; simp at h
      | some r =>
        rw [hd] at h
        simp only [Option.map_some', Option.some_inj, Prod.mk.injEq] at h
        exact ⟨r.2, by { rw [← h.1]; try exact hd }, h.2.symm⟩

theorem copyDirM_inv (sN d : FNode) (tp : FPath) (d2 : FNode) (ops : List FsOp)
    (h : copyDirM sN d tp = some (d2, ops)) :
    ∃ cs d1 ops1 ops2, sN = .dir cs ∧ ensureDirM d tp = some (d1, ops1) ∧
      copyListM cs d1 tp = some (d2, ops2) ∧ ops = ops1 ++ ops2 := by
  cases sN with
  | file c m a => simp [copyDirM] at h
  | other ok m a => simp [copyDirM] at h
  | dir cs =>
    unfold copyDirM at h
    split at h
    · simp at h
    · rename_i p1 d1 ops1 he
      cases hr : copyListM cs d1 tp with
      | none => rw [hr] at h; simp at h
      | some r =>
        rw [hr] at h
        simp only [Option.map_some', Option.some_inj, Prod.mk.injEq] at h
        exact ⟨cs, d1, ops1, r.2, rfl, he, by { rw [← h.1]; try exact hr }, h.2.symm⟩

theorem copyListM_cons_dir_inv (n : String) (ds rest : FDir) (d : FNode) (tp : FPath)
    (d2 : FNode) (ops : List FsOp)
    (h : copyListM (.cons n (.dir ds) rest) d tp = some (d2, ops)) :
    ∃ d1 ops1 ops2, copyDirM (.dir ds) d (tp ++ [n]) = some (d1, ops1) ∧
      copyListM rest d1 tp = some (d2, ops2) ∧ ops = ops1 ++ ops2 := by
  unfold copyListM at h
  split at h
  · simp at h
  · rename_i p1 d1 ops1 hstep
    cases hr : copyListM rest d1 tp with
    | none => rw [hr] at h; simp at h
    | some r =>
      rw [hr] at h
      simp only [Option.map_some', Option.some_inj, Prod.mk.injEq] at h
      exact ⟨d1, ops1, r.2, hstep, by { rw [← h.1]; try exact hr }, h.2.symm⟩

theorem copyListM_cons_file_inv (n : String) (c : String) (m a : ℚ) (rest : FDir)
    (d : FNode) (tp : FPath) (d2 : FNode) (ops : List FsOp)
    (h : copyListM (.cons n (.file c m a) rest) d tp = some (d2, ops)) :
    ∃ d1 ops1 ops2, copyFileNodeM (.file c m a) d (tp ++ [n]) = some (d1, ops1) ∧
      copyListM rest d1 tp = some (d2, ops2) ∧ ops = ops1 ++ ops2 := by
  unfold copyListM at h
  split at h
  · simp at h
  · rename_i p1 d1 ops1 hstep
    cases hr : copyListM rest d1 tp with
    | none => rw [hr] at h; simp at h
    | some r =>
      rw [hr] at h
      simp only [Option.map_some', Option.some_inj, Prod.mk.injEq] at h
      exact ⟨d1, ops1, r.2, hstep, by { rw [← h.1]; try exact hr }, h.2.symm⟩

theorem copyListM_cons_other_inv (n : String) (ok : Bool) (m a : ℚ) (rest : FDir)
    (d : FNode) (tp : FPath) (d2 : FNode) (ops : List FsOp)
    (h : copyListM (.cons n (.other ok m a) rest) d tp = some (d2, ops)) :
    ok = true ∧
    ∃ d1 ops1 ops2, copyFileNodeM (.other ok m a) d (tp ++ [n]) = some (d1, ops1) ∧
      copyListM rest d1 tp = some (d2, ops2) ∧ ops = ops1 ++ ops2 := by
  cases ok with
  | false => simp [copyListM] at h
  | true =>
    refine ⟨rfl, ?_⟩
    unfold copyListM at h
    rw [if_pos rfl] at h
    split at h
    · simp at h
    · rename_i p1 d1 ops1 hstep
      cases hr : copyListM rest d1 tp with
      | none => rw [hr] at h; simp at h
      | some r =>
        rw [hr] at h
        simp only [Option.map_some', Option.some_inj, Prod.mk.injEq] at h
        exact ⟨d1, ops1, r.2, hstep, by { rw [← h.1]; try exact hr }, h.2.symm⟩

theorem copyListM_cons_other_false (n : String) (m a : ℚ) (rest : FDir)
    (d : FNode) (tp : FPath) :
    copyListM (.cons n (.other false m a) rest) d tp = none := by
  simp [copyListM]

theorem runCopyL_cons_dir_inv (n : String) (ds : FDir) (rest : FDir) (d : FNode)
    (d2 : FNode) (ops : List FsOp)
    (h : runCopyL (.cons n (.dir ds) rest) d = some (d2, ops)) :
    ∃ d1 ops1 ops2, copyDirM (.dir ds) d [n] = some (d1, ops1) ∧
      runCopyL rest d1 = some (d2, ops2) ∧ ops = ops1 ++ ops2 := by
  unfold runCopyL at h
  split at h
  · simp at h
  · rename_i p1 d1 ops1 hstep
    cases hr : runCopyL rest d1 with
    | none => rw [hr] at h; simp at h
    | some r =>
      rw [hr] at h
      simp only [Option.map_some', Option.some_inj, Prod.mk.injEq] at h
      exact ⟨d1, ops1, r.2, hstep, by { rw [← h.1]; try exact hr }, h.2.symm⟩

theorem runCopyL_cons_file_inv (n : String) (c : String) (m a : ℚ) (rest : FDir)
    (d : FNode) (d2 : FNode) (ops : List FsOp)
    (h : runCopyL (.cons n (.file c m a) rest) d = some (d2, ops)) :
    ∃ d1 ops1 ops2, copyFileNodeM (.file c m a) d [n] = some (d1, ops1) ∧
      runCopyL rest d1 = some (d2, ops2) ∧ ops = ops1 ++ ops2 := by
  unfold runCopyL at h
  split at h
  · simp at h
  · rename_i p1 d1 ops1 hstep
    cases hr : runCopyL rest d1 with
    | none => rw [hr] at h; simp at h
    | some r =>
      rw [hr] at h
      simp only [Option.map_some', Option.some_inj, Prod.mk.injEq] at h
      exact ⟨d1, ops1, r.2, hstep, by { rw [← h.1]; try exact hr }, h.2.symm⟩

/-- The top-level loop of `NaiveSync.run` silently skips dirents that are
neither files nor directories. -/
theorem runCopyL_cons_other (n : String) (ok : Bool) (m a : ℚ) (rest : FDir)
    (d : FNode) :
    runCopyL (.cons n (.other ok m a) rest) d = runCopyL rest d := by
  simp [runCopyL]

theorem ensureDirM_ops_nondelete (d : FNode) (p : FPath) (d1 : FNode) (ops1 : List FsOp)
    (h : ensureDirM d p = some (d1, ops1)) : ∀ op ∈ ops1, op.isDelete = false := by
  rcases ensureDirM_cases d p d1 ops1 h with ⟨_, _, rfl⟩ | ⟨_, _, rfl⟩
  · simp
  · simp [FsOp.isDelete]

theorem copyFileNodeM_ops_nondelete (sN d : FNode) (tp : FPath) (d2 : FNode)
    (ops : List FsOp) (h : copyFileNodeM sN d tp = some (d2, ops)) :
    ∀ op ∈ ops, op.isDelete = false := by
  obtain ⟨d1, ops1, he, hcase⟩ := copyFileNodeM_inv sN d tp d2 ops h
  have h1 := ensureDirM_ops_nondelete d tp.dropLast d1 ops1 he
  rcases hcase with ⟨_, ss, ts, _, _, ⟨_, _, rfl⟩ | ⟨_, r2, hd, rfl⟩⟩ | ⟨_, r2, hd, rfl⟩
  · exact h1
  · obtain ⟨c, m, a, pcs, _, _, _, _, _, rfl⟩ := doCopyM_inv sN d1 tp d2 r2 hd
    intro op hop
    rcases List.mem_append.mp hop with hop | hop
    · exact h1 op hop
    · simp only [List.mem_cons, List.not_mem_nil, or_false] at hop
      rcases hop with rfl | rfl <;> rfl
  · obtain ⟨c, m, a, pcs, _, _, _, _, _, rfl⟩ := doCopyM_inv sN d1 tp d2 r2 hd
    intro op hop
    rcases List.mem_append.mp hop with hop | hop
    · exact h1 op hop
    · simp only [List.mem_cons, List.not_mem_nil, or_false] at hop
      rcases hop with rfl | rfl <;> rfl

mutual

theorem copyDirM_ops_nondelete (sN d : FNode) (tp : FPath) (d2 : FNode)
    (ops : List FsOp) (h : copyDirM sN d tp = some (d2, ops)) :
    ∀ op ∈ ops, op.isDelete = false := by
  obtain ⟨cs, d1, ops1, ops2, hsn, he, hl, rfl⟩ := copyDirM_inv sN d tp d2 ops h
  intro op hop
  rcases List.mem_append.mp hop with hop | hop
  · exact ensureDirM_ops_nondelete d tp d1 ops1 he op hop
  · exact copyListM_ops_nondelete cs d1 tp d2 ops2 hl op hop

theorem copyListM_ops_nondelete (cs : FDir) (d : FNode) (tp : FPath) (d2 : FNode)
    (ops : List FsOp) (h : copyListM cs d tp = some (d2, ops)) :
    ∀ op ∈ ops, op.isDelete = false := by
  cases cs with
  | nil =>
    simp only [copyListM, Option.some_inj, Prod.mk.injEq] at h
    rw [← h.2]
    simp
  | cons n node rest =>
    cases node with
    | dir ds =>
      obtain ⟨d1, ops1, ops2, hstep, hrest, rfl⟩ :=
        copyListM_cons_dir_inv n ds rest d tp d2 ops h
      intro op hop
      rcases List.mem_append.mp hop with hop | hop
      · exact copyDirM_ops_nondelete (.dir ds) d (tp ++ [n]) d1 ops1 hstep op hop
      · exact copyListM_ops_nondelete rest d1 tp d2 ops2 hrest op hop
    | file c m a =>
      obtain ⟨d1, ops1, ops2, hstep, hrest, rfl⟩ :=
        copyListM_cons_file_inv n c m a rest d tp d2 ops h
      intro op hop
      rcases List.mem_append.mp hop with hop | hop
      · exact copyFileNodeM_ops_nondelete (.file c m a) d (tp ++ [n]) d1 ops1 hstep op hop
      · exact copyListM_ops_nondelete rest d1 tp d2 ops2 hrest op hop
    | other ok m a =>
      obtain ⟨hok, d1, ops1, ops2, hstep, hrest, rfl⟩ :=
        copyListM_cons_other_inv n ok m a rest d tp d2 ops h
      intro op hop
      rcases List.mem_append.mp hop with hop | hop
      · exact copyFileNodeM_ops_nondelete (.other ok m a) d (tp ++ [n]) d1 ops1 hstep op hop
      · exact copyListM_ops_nondelete rest d1 tp d2 ops2 hrest op hop

end

theorem runCopyL_ops_nondelete (cs : FDir) (d : FNode) (d2 : FNode)
    (ops : List FsOp) (h : runCopyL cs d = some (d2, ops)) :
    ∀ op ∈ ops, op.isDelete = false := by
  induction cs using FDir.recList generalizing d ops with
  | hnil =>
    simp only [runCopyL, Option.some_inj, Prod.mk.injEq] at h
    rw [← h.2]
    simp
  | hcons n node rest ih =>
    cases node with
    | dir ds =>
      obtain ⟨d1, ops1, ops2, hstep, hrest, rfl⟩ :=
        runCopyL_cons_dir_inv n ds rest d d2 ops h
      intro op hop
      rcases List.mem_append.mp hop with hop | hop
      · exact copyDirM_ops_nondelete (.dir ds) d [n] d1 ops1 hstep op hop
      · exact ih d1 ops2 hrest op hop
    | file c m a =>
      obtain ⟨d1, ops1, ops2, hstep, hrest, rfl⟩ :=
        runCopyL_cons_file_inv n c m a rest d d2 ops h
      intro op hop
      rcases List.mem_append.mp hop with hop | hop
      · exact copyFileNodeM_ops_nondelete (.file c m a) d [n] d1 ops1 hstep op hop
      · exact ih d1 ops2 hrest op hop
    | other ok m a =>
      rw [runCopyL_cons_other] at h
      exact ih d ops h

theorem getAt_dir_cons (n : String) (node : FNode) (rest : FDir) (m : String) (qr : FPath) :
    getAt (.dir (.cons n node rest)) (m :: qr) =
      if n = m then getAt node qr else getAt (.dir rest) (m :: qr) := by
  by_cases hm : n = m
  · simp [getAt, FDir.lookup, hm]
  · simp only [getAt, FDir.lookup, if_neg hm]

theorem cleanupD_cons_file_keep (src : FNode) (rel : FPath) (n : String)
    (c : String) (m a : ℚ) (rest : FDir)
    (hex : pathExistsM src (rel ++ [n]) = true) :
    cleanupD src rel (.cons n (.file c m a) rest) =
      (.cons n (.file c m a) (cleanupD src rel rest).1, (cleanupD src rel rest).2) := by
  simp [cleanupD, hex, FNode.isFile, FNode.isDirectory]

theorem cleanupD_cons_file_del (src : FNode) (rel : FPath) (n : String)
    (c : String) (m a : ℚ) (rest : FDir)
    (hex : pathExistsM src (rel ++ [n]) = false) :
    cleanupD src rel (.cons n (.file c m a) rest) =
      ((cleanupD src rel rest).1, FsOp.rm (rel ++ [n]) :: (cleanupD src rel rest).2) := by
  simp [cleanupD, hex, FNode.isFile, FNode.isDirectory]

theorem cleanupD_cons_dir_keep (src : FNode) (rel : FPath) (n : String)
    (ds : FDir) (rest : FDir)
    (hex : pathExistsM src (rel ++ [n]) = true) :
    cleanupD src rel (.cons n (.dir ds) rest) =
      (.cons n (cleanupN src (rel ++ [n]) (.dir ds)).1 (cleanupD src rel rest).1,
        (cleanupN src (rel ++ [n]) (.dir ds)).2 ++ (cleanupD src rel rest).2) := by
  simp [cleanupD, hex, FNode.isFile, FNode.isDirectory]

theorem cleanupD_cons_dir_del (src : FNode) (rel : FPath) (n : String)
    (ds : FDir) (rest : FDir)
    (hex : pathExistsM src (rel ++ [n]) = false) :
    cleanupD src rel (.cons n (.dir ds) rest) =
      ((cleanupD src rel rest).1, FsOp.rmRec (rel ++ [n]) :: (cleanupD src rel rest).2) := by
  simp [cleanupD, hex, FNode.isFile, FNode.isDirectory]

theorem cleanupD_cons_other (src : FNode) (rel : FPath) (n : String)
    (ok : Bool) (m a : ℚ) (rest : FDir) :
    cleanupD src rel (.cons n (.other ok m a) rest) =
      (.cons n (.other ok m a) (cleanupD src rel rest).1, (cleanupD src rel rest).2) := by
  simp [cleanupD, FNode.isFile, FNode.isDirectory]

mutual

theorem cleanupN_ops_delete (src : FNode) (rel : FPath) (t : FNode) :
    ∀ op ∈ (cleanupN src rel t).2, op.isDelete = true := by
  cases t with
  | dir cs =>
    simp only [cleanupN]
    exact cleanupD_ops_delete src rel cs
  | file c m a => simp [cleanupN]
  | other ok m a => simp [cleanupN]

theorem cleanupD_ops_delete (src : FNode) (rel : FPath) (cs : FDir) :
    ∀ op ∈ (cleanupD src rel cs).2, op.isDelete = true := by
  cases cs with
  | nil => simp [cleanupD]
  | cons n node rest =>
    intro op hop
    cases node with
    | file c m a =>
      cases hex : pathExistsM src (rel ++ [n]) with
      | true =>
        rw [cleanupD_cons_file_keep src rel n c m a rest hex] at hop
        exact cleanupD_ops_delete src rel rest op hop
      | false =>
        rw [cleanupD_cons_file_del src rel n c m a rest hex] at hop
        rcases List.mem_cons.mp hop with rfl | hop2
        · rfl
        · exact cleanupD_ops_delete src rel rest op hop2
    | dir ds =>
      cases hex : pathExistsM src (rel ++ [n]) with
      | true =>
        rw [cleanupD_cons_dir_keep src rel n ds rest hex] at hop
        rcases List.mem_append.mp hop with hop2 | hop2
        · exact cleanupN_ops_delete src (rel ++ [n]) (.dir ds) op hop2
        · exact cleanupD_ops_delete src rel rest op hop2
      | false =>
        rw [cleanupD_cons_dir_del src rel n ds rest hex] at hop
        rcases List.mem_cons.mp hop with rfl | hop2
        · rfl
        · exact cleanupD_ops_delete src rel rest op hop2
    | other ok m a =>
      rw [cleanupD_cons_other src rel n ok m a rest] at hop
      exact cleanupD_ops_delete src rel rest op hop

end

theorem cleanupD_lookup_none (src : FNode) (rel : FPath) (cs : FDir) (n : String)
    (h : cs.lookup n = none) : (cleanupD src rel cs).1.lookup n = none := by
  induction cs using FDir.recList with
  | hnil => simp [cleanupD, FDir.lookup]
  | hcons m node rest ih =>
    simp only [FDir.lookup] at h
    by_cases hmn : m = n
    · rw [if_pos hmn] at h; exact absurd h (by simp)
    · rw [if_neg hmn] at h
      cases node with
      | file c mm a =>
        cases hex : pathExistsM src (rel ++ [m]) with
        | true =>
          rw [cleanupD_cons_file_keep src rel m c mm a rest hex]
          simp [FDir.lookup, hmn, ih h]
        | false =>
          rw [cleanupD_cons_file_del src rel m c mm a rest hex]
          exact ih h
      | dir ds =>
        cases hex : pathExistsM src (rel ++ [m]) with
        | true =>
          rw [cleanupD_cons_dir_keep src rel m ds rest hex]
          simp [FDir.lookup, hmn, ih h]
        | false =>
          rw [cleanupD_cons_dir_del src rel m ds rest hex]
          exact ih h
      | other ok mm a =>
        rw [cleanupD_cons_other src rel m ok mm a rest]
        simp [FDir.lookup, hmn, ih h]

/-- During cleanup, a destination file whose mapped source path exists is
kept untouched, whatever the kind of the source entry. -/
theorem cleanupD_keep_file (src : FNode) (rel : FPath) (cs : FDir) (n : String)
    (c : String) (m a : ℚ)
    (h : cs.lookup n = some (.file c m a)) (hex : pathExistsM src (rel ++ [n]) = true) :
    (cleanupD src rel cs).1.lookup n = some (.file c m a) := by
  induction cs using FDir.recList with
  | hnil => simp [FDir.lookup] at h
  | hcons k node rest ih =>
    simp only [FDir.lookup] at h
    by_cases hkn : k = n
    · rw [if_pos hkn] at h
      subst hkn
      rw [Option.some_inj] at h
      subst h
      rw [cleanupD_cons_file_keep src rel k c m a rest hex]
      simp [FDir.lookup]
    · rw [if_neg hkn] at h
      cases node with
      | file c2 m2 a2 =>
        cases hex2 : pathExistsM src (rel ++ [k]) with
        | true =>
          rw [cleanupD_cons_file_keep src rel k c2 m2 a2 rest hex2]
          simp [FDir.lookup, hkn, ih h]
        | false =>
          rw [cleanupD_cons_file_del src rel k c2 m2 a2 rest hex2]
          exact ih h
      | dir ds =>
        cases hex2 : pathExistsM src (rel ++ [k]) with
        | true =>
          rw [cleanupD_cons_dir_keep src rel k ds rest hex2]
          simp [FDir.lookup, hkn, ih h]
        | false =>
          rw [cleanupD_cons_dir_del src rel k ds rest hex2]
          exact ih h
      | other ok2 m2 a2 =>
        rw [cleanupD_cons_other src rel k ok2 m2 a2 rest]
        simp [FDir.lookup, hkn, ih h]

/-- During cleanup, a destination file or directory whose mapped source
path does not exist is deleted — a file with the plain `rm`, a directory
with the recursive one. -/
theorem cleanupD_delete (src : FNode) (rel : FPath) (cs : FDir) (n : String)
    (node : FNode) (hwf : WFd cs = true)
    (h : cs.lookup n = some node) (hex : pathExistsM src (rel ++ [n]) = false)
    (hkind : node.isFile = true ∨ node.isDirectory = true) :
    (cleanupD src rel cs).1.lookup n = none ∧
    (node.isFile = true → FsOp.rm (rel ++ [n]) ∈ (cleanupD src rel cs).2) ∧
    (node.isDirectory = true → FsOp.rmRec (rel ++ [n]) ∈ (cleanupD src rel cs).2) := by
  induction cs using FDir.recList with
  | hnil => simp [FDir.lookup] at h
  | hcons k nodek rest ih =>
    simp only [WFd, Bool.and_eq_true] at hwf
    simp only [FDir.lookup] at h
    by_cases hkn : k = n
    · rw [if_pos hkn] at h
      subst hkn
      rw [Option.some_inj] at h
      subst h
      have hrest : FDir.lookup rest k = none := Option.isNone_iff_eq_none.mp hwf.1.1
      cases nodek with
      | file c mm a =>
        rw [cleanupD_cons_file_del src rel k c mm a rest hex]
        refine ⟨cleanupD_lookup_none src rel rest k hrest, fun _ => List.mem_cons_self _ _, ?_⟩
        intro hh
        simp [FNode.isDirectory] at hh
      | dir ds =>
        rw [cleanupD_cons_dir_del src rel k ds rest hex]
        refine ⟨cleanupD_lookup_none src rel rest k hrest, ?_, fun _ => List.mem_cons_self _ _⟩
        intro hh
        simp [FNode.isFile] at hh
      | other ok mm a =>
        simp [FNode.isFile, FNode.isDirectory] at hkind
    · rw [if_neg hkn] at h
      have ihr := ih hwf.2 h
      cases nodek with
      | file c2 m2 a2 =>
        cases hex2 : pathExistsM src (rel ++ [k]) with
        | true =>
          rw [cleanupD_cons_file_keep src rel k c2 m2 a2 rest hex2]
          exact ⟨by simp [FDir.lookup, hkn, ihr.1], ihr.2.1, ihr.2.2⟩
        | false =>
          rw [cleanupD_cons_file_del src rel k c2 m2 a2 rest hex2]
          exact ⟨ihr.1, fun hh => List.mem_cons_of_mem _ (ihr.2.1 hh),
            fun hh => List.mem_cons_of_mem _ (ihr.2.2 hh)⟩
      | dir ds =>
        cases hex2 : pathExistsM src (rel ++ [k]) with
        | true =>
          rw [cleanupD_cons_dir_keep src rel k ds rest hex2]
          exact ⟨by simp [FDir.lookup, hkn, ihr.1],
            fun hh => List.mem_append_right _ (ihr.2.1 hh),
            fun hh => List.mem_append_right _ (ihr.2.2 hh)⟩
        | false =>
          rw [cleanupD_cons_dir_del src rel k ds rest hex2]
          exact ⟨ihr.1, fun hh => List.mem_cons_of_mem _ (ihr.2.1 hh),
            fun hh => List.mem_cons_of_mem _ (ihr.2.2 hh)⟩
      | other ok2 m2 a2 =>
        rw [cleanupD_cons_other src rel k ok2 m2 a2 rest]
        exact ⟨by simp [FDir.lookup, hkn, ihr.1], ihr.2.1, ihr.2.2⟩

/-- C5: during the cleanup sub-phase, every destination entry (file or
directory) whose path mapped under the source root does not exist is
deleted — files with the plain `rm`, directories with the recursive
`rm` — and it is absent from the cleaned listing. -/
theorem C5_cleanup_deletes_stale (src : FNode) (rel : FPath) (cs : FDir) (n : String)
    (node : FNode) (hwf : WFd cs = true)
    (h : cs.lookup n = some node)
    (hex : pathExistsM src (rel ++ [n]) = false)
    (hkind : node.isFile = true ∨ node.isDirectory = true) :
    (cleanupD src rel cs).1.lookup n = none ∧
    (node.isFile = true → FsOp.rm (rel ++ [n]) ∈ (cleanupD src rel cs).2) ∧
    (node.isDirectory = true → FsOp.rmRec (rel ++ [n]) ∈ (cleanupD src rel cs).2) :=
  cleanupD_delete src rel cs n node hwf h hex hkind

theorem C5_witness :
    (cleanupD (.dir .nil) [] (.cons "stale.txt" (.file "x" 5 5)
      (.cons "staledir" (.dir .nil) .nil))).1.lookup "stale.txt" = none ∧
    FsOp.rm ["stale.txt"] ∈ (cleanupD (.dir .nil) []
      (.cons "stale.txt" (.file "x" 5 5) (.cons "staledir" (.dir .nil) .nil))).2 ∧
    FsOp.rmRec ["staledir"] ∈ (cleanupD (.dir .nil) []
      (.cons "stale.txt" (.file "x" 5 5) (.cons "staledir" (.dir .nil) .nil))).2 := by
  have h1 := C5_cleanup_deletes_stale (.dir .nil) []
    (.cons "stale.txt" (.file "x" 5 5) (.cons "staledir" (.dir .nil) .nil))
    "stale.txt" (.file "x" 5 5) (by decide) rfl rfl (Or.inl rfl)
  have h2 := C5_cleanup_deletes_stale (.dir .nil) []
    (.cons "stale.txt" (.file "x" 5 5) (.cons "staledir" (.dir .nil) .nil))
    "staledir" (.dir .nil) (by decide) rfl rfl (Or.inr rfl)
  exact ⟨h1.1, h1.2.1 rfl, h2.2.2 rfl⟩

/-- C6: during the cleanup sub-phase, a destination file whose mapped
source path exists is kept without the type of the source entry being
examined; in particular it is retained even when the source entry at
that path is now a directory of the same name. -/
theorem C6_type_mismatch_retained (src : FNode) (rel : FPath) (cs : FDir) (n : String)
    (c : String) (m a : ℚ) (h : cs.lookup n = some (.file c m a)) :
    (pathExistsM src (rel ++ [n]) = true →
      (cleanupD src rel cs).1.lookup n = some (.file c m a)) ∧
    (∀ scs, getAt src (rel ++ [n]) = some (.dir scs) →
      (cleanupD src rel cs).1.lookup n = some (.file c m a)) := by
  constructor
  · intro hex
    exact cleanupD_keep_file src rel cs n c m a h hex
  · intro scs hsrc
    refine cleanupD_keep_file src rel cs n c m a h ?_
    simp [pathExistsM, statAt, hsrc, statNode]

theorem C6_witness :
    (cleanupD (.dir (.cons "sub" (.dir .nil) .nil)) []
      (.cons "sub" (.file "old" 5 5) .nil)).1.lookup "sub" = some (.file "old" 5 5) := by
  have h := C6_type_mismatch_retained (.dir (.cons "sub" (.dir .nil) .nil)) []
    (.cons "sub" (.file "old" 5 5) .nil) "sub" "old" 5 5 rfl
  exact h.2 .nil rfl

/-- C2: `FsHelper.copyFile` with an existing target whose rounded
modification-time difference from the source is zero returns before the
content write: the destination tree is returned unchanged (so the target
file keeps its content and both of its timestamps) and the operation
trace is empty — in particular it contains no `fsCopy` write and no
`utimes` stamping. -/
theorem C2_copyFile_mtime_skip (sN d : FNode) (tp : FPath) (ss ts : StatInfo)
    (hss : statNode sN = some ss)
    (hts : statAt d tp = some ts)
    (hz : (jsRound (ss.mtime - ts.mtime)).natAbs = 0) :
    copyFileNodeM sN d tp = some (d, []) := by
  have hpar := pathExistsM_dropLast_of_statAt d tp ts hts
  have hex : pathExistsM d tp = true := by simp [pathExistsM, hts]
  simp [copyFileNodeM, ensureDirM_exists d tp.dropLast hpar, hex, hss, hts, hz]

theorem C2_witness :
    copyFileNodeM (.file "new" 10 11)
      (.dir (.cons "t" (.file "old" 10 5) .nil)) ["t"] =
      some (.dir (.cons "t" (.file "old" 10 5) .nil), []) :=
  C2_copyFile_mtime_skip (.file "new" 10 11)
    (.dir (.cons "t" (.file "old" 10 5) .nil)) ["t"]
    ⟨false, 10, 11⟩ ⟨false, 10, 5⟩ rfl rfl (jsRound_sub_self 10)

/-- C4: every one of the five watcher-event handlers of `ActiveSync`
returns without mutating the destination (same state, empty operation
trace) when it runs before the readiness signal has set the `ready`
flag. -/
theorem C4_preready_events_discarded (rOK wOK : FPath → Bool) (src : FNode)
    (st : ASt) (p : FPath) (h : st.ready = false) :
    addHandlerM rOK src st p = some (st, []) ∧
    addDirHandlerM rOK src st p = some (st, []) ∧
    changeHandlerM rOK src st p = some (st, []) ∧
    unlinkHandlerM wOK st p = some (st, []) ∧
    unlinkDirHandlerM wOK st p = some (st, []) := by
  simp [addHandlerM, addDirHandlerM, changeHandlerM, unlinkHandlerM, unlinkDirHandlerM, h]

theorem C4_witness :
    addHandlerM (fun _ => true) (.dir .nil) (initA (.dir .nil)) ["c.txt"] =
      some (initA (.dir .nil), []) ∧
    addDirHandlerM (fun _ => true) (.dir .nil) (initA (.dir .nil)) ["c.txt"] =
      some (initA (.dir .nil), []) ∧
    changeHandlerM (fun _ => true) (.dir .nil) (initA (.dir .nil)) ["c.txt"] =
      some (initA (.dir .nil), []) ∧
    unlinkHandlerM (fun _ => true) (initA (.dir .nil)) ["c.txt"] =
      some (initA (.dir .nil), []) ∧
    unlinkDirHandlerM (fun _ => true) (initA (.dir .nil)) ["c.txt"] =
      some (initA (.dir .nil), []) :=
  C4_preready_events_discarded (fun _ => true) (fun _ => true) (.dir .nil)
    (initA (.dir .nil)) ["c.txt"] rfl

/-- C8: after readiness, `removed(path)` is a no-op when the mapped
destination entry is absent or not writable; otherwise exactly the
mapped destination file is deleted with a plain `rm` (every path that is
neither the deleted one nor on its ancestor chain is untouched).
`removedDirectory(path)` follows the same gating with a recursive
delete. -/
theorem C8_remove_handlers_policy (wOK : FPath → Bool) (st : ASt) (p : FPath)
    (hready : st.ready = true) (hp : p ≠ []) :
    (pathExistsM st.dest p = false →
      unlinkHandlerM wOK st p = some (st, []) ∧
      unlinkDirHandlerM wOK st p = some (st, [])) ∧
    (wOK p = false →
      unlinkHandlerM wOK st p = some (st, []) ∧
      unlinkDirHandlerM wOK st p = some (st, [])) ∧
    (∀ c m a, getAt st.dest p = some (.file c m a) → wOK p = true →
      unlinkHandlerM wOK st p = some ({ st with dest := removeAt st.dest p }, [FsOp.rm p]) ∧
      getAt (removeAt st.dest p) p = none ∧
      (∀ q, ¬ pfx p q = true → ¬ pfx q p = true →
        getAt (removeAt st.dest p) q = getAt st.dest q)) ∧
    (∀ node, getAt st.dest p = some node → (statNode node).isSome = true → wOK p = true →
      unlinkDirHandlerM wOK st p =
        some ({ st with dest := removeAt st.dest p }, [FsOp.rmRec p]) ∧
      getAt (removeAt st.dest p) p = none ∧
      (∀ q, ¬ pfx p q = true → ¬ pfx q p = true →
        getAt (removeAt st.dest p) q = getAt st.dest q)) := by
  refine ⟨?_, ?_, ?_, ?_⟩
  · intro hex
    simp [unlinkHandlerM, unlinkDirHandlerM, hready, hex]
  · intro hw
    by_cases hex : pathExistsM st.dest p = true
    · simp [unlinkHandlerM, unlinkDirHandlerM, hready, hex, canWriteM, hw]
    · simp only [Bool.not_eq_true] at hex
      simp [unlinkHandlerM, unlinkDirHandlerM, hready, hex]
  · intro c m a hg hw
    have hex : pathExistsM st.dest p = true := by
      simp [pathExistsM, statAt, hg, statNode]
    refine ⟨?_, removeAt_get_self p st.dest (.file c m a) hg hp, ?_⟩
    · simp [unlinkHandlerM, hready, hex, canWriteM, hw, hg]
    · intro q h1 h2
      exact removeAt_frame p st.dest q h1 h2
  · intro node hg hs hw
    have hex : pathExistsM st.dest p = true := by
      simp only [pathExistsM, statAt, hg, Option.bind_some]
      exact hs
    refine ⟨?_, removeAt_get_self p st.dest node hg hp, ?_⟩
    · simp [unlinkDirHandlerM, hready, hex, canWriteM, hw]
    · intro q h1 h2
      exact removeAt_frame p st.dest q h1 h2

theorem C8_witness :
    unlinkHandlerM (fun _ => true)
      ⟨true, true, .dir (.cons "a" (.file "1" 5 5) .nil)⟩ ["a"] =
      some (⟨true, true, .dir .nil⟩, [FsOp.rm ["a"]]) ∧
    unlinkHandlerM (fun _ => true)
      ⟨true, true, .dir (.cons "a" (.file "1" 5 5) .nil)⟩ ["b"] =
      some (⟨true, true, .dir (.cons "a" (.file "1" 5 5) .nil)⟩, []) ∧
    unlinkDirHandlerM (fun _ => false)
      ⟨true, true, .dir (.cons "a" (.file "1" 5 5) .nil)⟩ ["a"] =
      some (⟨true, true, .dir (.cons "a" (.file "1" 5 5) .nil)⟩, []) := by
  have h := C8_remove_handlers_policy (fun _ => true)
    ⟨true, true, .dir (.cons "a" (.file "1" 5 5) .nil)⟩ ["a"] rfl (by simp)
  have h2 := C8_remove_handlers_policy (fun _ => true)
    ⟨true, true, .dir (.cons "a" (.file "1" 5 5) .nil)⟩ ["b"] rfl (by simp)
  have h3 := C8_remove_handlers_policy (fun _ => false)
    ⟨true, true, .dir (.cons "a" (.file "1" 5 5) .nil)⟩ ["a"] rfl (by simp)
  refine ⟨(h.2.2.1 "1" 5 5 rfl rfl).1, (h2.1 rfl).1, (h3.2.1 rfl).2⟩

/-- C9: the abort marker of the initial engine is never consulted inside
the recursive cleanup or copy loops — `run` computes the same result
whatever the marker holds — and its sole effect on phase sequencing is
that an abort raised before the initial reconciliation returns makes the
orchestrator return without starting the watcher (and with the abort not
raised, the watcher is started). -/
theorem C9_abort_is_advisory (st st2 : NaiveState) (src dst : FNode) :
    (naiveRunM st src dst = naiveRunM st2 src dst) ∧
    (∀ d ops w, syncRunM true src dst = some (d, ops, w) → w = false) ∧
    (∀ d ops w, syncRunM false src dst = some (d, ops, w) → w = true) := by
  refine ⟨rfl, ?_, ?_⟩
  · intro d ops w h
    unfold syncRunM at h
    cases hr : runM src dst with
    | none => rw [hr] at h; simp at h
    | some r =>
      obtain ⟨d0, ops0⟩ := r
      rw [hr] at h
      have h2 : (some (d0, ops0, false) : Option (FNode × List FsOp × Bool))
          = some (d, ops, w) := h
      have h3 := Option.some.inj h2
      exact (congrArg (fun x => x.2.2) h3).symm
  · intro d ops w h
    unfold syncRunM at h
    cases hr : runM src dst with
    | none => rw [hr] at h; simp at h
    | some r =>
      obtain ⟨d0, ops0⟩ := r
      rw [hr] at h
      have h2 : (some (d0, ops0, true) : Option (FNode × List FsOp × Bool))
          = some (d, ops, w) := h
      have h3 := Option.some.inj h2
      exact (congrArg (fun x => x.2.2) h3).symm

theorem C9_witness :
    naiveRunM ⟨true⟩ (.dir .nil) (.dir .nil) = naiveRunM ⟨false⟩ (.dir .nil) (.dir .nil) ∧
    false = false ∧ true = true :=
  ⟨(C9_abort_is_advisory ⟨true⟩ ⟨false⟩ (.dir .nil) (.dir .nil)).1,
   (C9_abort_is_advisory ⟨true⟩ ⟨false⟩ (.dir .nil) (.dir .nil)).2.1
     (.dir .nil) [] false rfl,
   (C9_abort_is_advisory ⟨true⟩ ⟨false⟩ (.dir .nil) (.dir .nil)).2.2
     (.dir .nil) [] true rfl⟩

theorem addHandlerM_ready (rOK : FPath → Bool) (src : FNode) (st : ASt) (p : FPath)
    (st2 : ASt) (ops : List FsOp) (h : addHandlerM rOK src st p = some (st2, ops)) :
    st2.ready = st.ready := by
  unfold addHandlerM at h
  split at h
  · exact (congrArg (fun x => ASt.ready x.1) (Option.some.inj h)).symm
  · split at h
    · exact (congrArg (fun x => ASt.ready x.1) (Option.some.inj h)).symm
    · split at h
      · rename_i sN hsN
        cases hc : copyFileNodeM sN st.dest p with
        | none => rw [hc] at h; simp at h
        | some r =>
          rw [hc] at h
          simp only [Option.map_some', Option.some_inj, Prod.mk.injEq] at h
          rw [← h.1]
      · exact (congrArg (fun x => ASt.ready x.1) (Option.some.inj h)).symm

theorem addDirHandlerM_ready (rOK : FPath → Bool) (src : FNode) (st : ASt) (p : FPath)
    (st2 : ASt) (ops : List FsOp) (h : addDirHandlerM rOK src st p = some (st2, ops)) :
    st2.ready = st.ready := by
  unfold addDirHandlerM at h
  split at h
  · exact (congrArg (fun x => ASt.ready x.1) (Option.some.inj h)).symm
  · split at h
    · exact (congrArg (fun x => ASt.ready x.1) (Option.some.inj h)).symm
    · split at h
      · rename_i sN hsN
        cases hc : copyDirM sN st.dest p with
        | none => rw [hc] at h; simp at h
        | some r =>
          rw [hc] at h
          simp only [Option.map_some', Option.some_inj, Prod.mk.injEq] at h
          rw [← h.1]
      · exact (congrArg (fun x => ASt.ready x.1) (Option.some.inj h)).symm

theorem changeHandlerM_ready (rOK : FPath → Bool) (src : FNode) (st : ASt) (p : FPath)
    (st2 : ASt) (ops : List FsOp) (h : changeHandlerM rOK src st p = some (st2, ops)) :
    st2.ready = st.ready := by
  unfold changeHandlerM at h
  split at h
  · exact (congrArg (fun x => ASt.ready x.1) (Option.some.inj h)).symm
  · split at h
    · exact (congrArg (fun x => ASt.ready x.1) (Option.some.inj h)).symm
    · split at h
      · rename_i sN hsN
        cases hc : copyFileNodeM sN st.dest p with
        | none => rw [hc] at h; simp at h
        | some r =>
          rw [hc] at h
          simp only [Option.map_some', Option.some_inj, Prod.mk.injEq] at h
          rw [← h.1]
      · exact (congrArg (fun x => ASt.ready x.1) (Option.some.inj h)).symm

theorem unlinkHandlerM_ready (wOK : FPath → Bool) (st : ASt) (p : FPath)
    (st2 : ASt) (ops : List FsOp) (h : unlinkHandlerM wOK st p = some (st2, ops)) :
    st2.ready = st.ready := by
  unfold unlinkHandlerM at h
  split at h
  · exact (congrArg (fun x => ASt.ready x.1) (Option.some.inj h)).symm
  · split at h
    · exact (congrArg (fun x => ASt.ready x.1) (Option.some.inj h)).symm
    · split at h
      · exact (congrArg (fun x => ASt.ready x.1) (Option.some.inj h)).symm
      · split at h
        · simp at h
        · exact (congrArg (fun x => ASt.ready x.1) (Option.some.inj h)).symm

theorem unlinkDirHandlerM_ready (wOK : FPath → Bool) (st : ASt) (p : FPath)
    (st2 : ASt) (ops : List FsOp) (h : unlinkDirHandlerM wOK st p = some (st2, ops)) :
    st2.ready = st.ready := by
  unfold unlinkDirHandlerM at h
  split at h
  · exact (congrArg (fun x => ASt.ready x.1) (Option.some.inj h)).symm
  · split at h
    · exact (congrArg (fun x => ASt.ready x.1) (Option.some.inj h)).symm
    · split at h
      · exact (congrArg (fun x => ASt.ready x.1) (Option.some.inj h)).symm
      · exact (congrArg (fun x => ASt.ready x.1) (Option.some.inj h)).symm

/-- C10: the `ready` flag of an `ActiveSync` instance is monotonic: it
starts `false` on a fresh instance, the only event that changes it is
the readiness signal, which sets it to `true`, and every other operation
of the class — the five mutation handlers and `abort()` included —
leaves it unchanged, so once `true` it stays `true` for the lifetime of
the instance.  (It is a `protected` field, so no code outside the class
can assign it.) -/
theorem C10_ready_flag_monotone (rOK wOK : FPath → Bool) (src d : FNode)
    (st st2 : ASt) (e : AEvent) (ops : List FsOp)
    (hstep : stepA rOK wOK src st e = some (st2, ops)) :
    (initA d).ready = false ∧ st2.ready = (st.ready || e.isReadyEv) := by
  refine ⟨rfl, ?_⟩
  cases e with
  | added p =>
    rw [addHandlerM_ready rOK src st p st2 ops hstep]
    simp [AEvent.isReadyEv]
  | addedDir p =>
    rw [addDirHandlerM_ready rOK src st p st2 ops hstep]
    simp [AEvent.isReadyEv]
  | changed p =>
    rw [changeHandlerM_ready rOK src st p st2 ops hstep]
    simp [AEvent.isReadyEv]
  | removed p =>
    rw [unlinkHandlerM_ready wOK st p st2 ops hstep]
    simp [AEvent.isReadyEv]
  | removedDir p =>
    rw [unlinkDirHandlerM_ready wOK st p st2 ops hstep]
    simp [AEvent.isReadyEv]
  | readyEv =>
    have h2 := congrArg Prod.fst (Option.some.inj hstep)
    rw [← congrArg ASt.ready h2]
    simp [readyHandlerM, AEvent.isReadyEv]
  | abortEv =>
    have h2 := congrArg Prod.fst (Option.some.inj hstep)
    rw [← congrArg ASt.ready h2]
    unfold abortA
    by_cases hw : st.watcherActive = true
    · simp [hw, AEvent.isReadyEv]
    · simp only [Bool.not_eq_true] at hw
      simp [hw, AEvent.isReadyEv]

theorem C10_witness :
    (initA (.dir .nil)).ready = false ∧
    (readyHandlerM (initA (.dir .nil))).ready = ((initA (.dir .nil)).ready || true) ∧
    (abortA (runA (readyHandlerM (initA (.dir .nil))))).ready =
      ((runA (readyHandlerM (initA (.dir .nil)))).ready || false) := by
  have h1 := C10_ready_flag_monotone (fun _ => true) (fun _ => true) (.dir .nil) (.dir .nil)
    (initA (.dir .nil)) (readyHandlerM (initA (.dir .nil))) .readyEv [] rfl
  have h2 := C10_ready_flag_monotone (fun _ => true) (fun _ => true) (.dir .nil) (.dir .nil)
    (runA (readyHandlerM (initA (.dir .nil))))
    (abortA (runA (readyHandlerM (initA (.dir .nil))))) .abortEv [] rfl
  exact ⟨h1.1, h1.2, h2.2⟩

theorem dropLast_snoc (p : FPath) (n : String) : (p ++ [n]).dropLast = p := by
  simp

/-- C7 counterexample: a source tree whose only unusual entry is a
non-file, non-directory entry (`stat` failing on it, as for a broken
symlink) inside a subdirectory.  The claim asserts that the recursive
`FsHelper.copyDirectory` silently skips such an entry without error and
creates nothing for it; in fact `copyDirectory` does not skip it — it
`stat`s the entry, and the failure propagates, so the whole run errors
(`none`) instead of completing with the entry skipped. -/
theorem C7_counterexample :
    runM (.dir (.cons "d" (.dir (.cons "lnk" (.other false 0 0) .nil)) .nil))
      (.dir .nil) = none := rfl

/-- C7 amended: only the top-level loop of `NaiveSync.run` silently
skips entries that are neither files nor directories (first conjunct:
the loop step on such an entry is the identity, so no error is raised
and nothing is created for it).  `FsHelper.copyDirectory`, by contrast,
does not skip them: an entry whose `stat` fails (broken symlink) makes
the recursive copy fail (second conjunct), and an entry whose `stat`
succeeds (socket, device) is passed on to `copyFile`, whose content copy
from a non-regular source fails whenever the no-op mtime check does not
intervene — e.g. for any fresh target (third conjunct). -/
theorem C7_amended_other_entries :
    (∀ (n : String) (ok : Bool) (m a : ℚ) (rest : FDir) (d : FNode),
      runCopyL (.cons n (.other ok m a) rest) d = runCopyL rest d) ∧
    (∀ (n : String) (m a : ℚ) (rest : FDir) (d : FNode) (tp : FPath),
      copyListM (.cons n (.other false m a) rest) d tp = none) ∧
    (∀ (n : String) (m a : ℚ) (rest : FDir) (d : FNode) (tp : FPath),
      pathExistsM d (tp ++ [n]) = false →
      copyListM (.cons n (.other true m a) rest) d tp = none) := by
  refine ⟨fun n ok m a rest d => runCopyL_cons_other n ok m a rest d,
    fun n m a rest d tp => copyListM_cons_other_false n m a rest d tp, ?_⟩
  intro n m a rest d tp hex
  have hstep : copyFileNodeM (.other true m a) d (tp ++ [n]) = none := by
    unfold copyFileNodeM
    cases he : ensureDirM d (tp ++ [n]).dropLast with
    | none => rfl
    | some p1 =>
      obtain ⟨d1, ops1⟩ := p1
      have hex1 : pathExistsM d1 (tp ++ [n]) = false := by
        rcases ensureDirM_cases d (tp ++ [n]).dropLast d1 ops1 he with
          ⟨_, rfl, _⟩ | ⟨_, hmk, _⟩
        · exact hex
        · cases hsa : statAt d1 (tp ++ [n]) with
          | none => simp [pathExistsM, hsa]
          | some s =>
            exfalso
            simp only [statAt] at hsa
            cases hg : getAt d1 (tp ++ [n]) with
            | none => rw [hg] at hsa; simp at hsa
            | some node =>
              rw [hg] at hsa
              rcases mkdirRecM_get_cases (tp ++ [n]).dropLast d d1 (tp ++ [n]) node hmk hg with
                hg2 | ⟨hpfx, _⟩
              · have hx : pathExistsM d (tp ++ [n]) = true := by
                  simp only [Option.some_bind] at hsa
                  simp [pathExistsM, statAt, hg2, hsa]
                rw [hx] at hex
                exact Bool.noConfusion hex
              · rw [dropLast_snoc] at hpfx
                have hlen := pfx_length_le _ _ hpfx
                simp at hlen
      simp [hex1, doCopyM]
  simp [copyListM, hstep]

theorem C7_amended_witness :
    runCopyL (.cons "s" (.other false 0 0) .nil) (.dir .nil) = runCopyL .nil (.dir .nil) ∧
    copyListM (.cons "lnk" (.other false 0 0) .nil) (.dir .nil) ["d"] = none ∧
    copyListM (.cons "sock" (.other true 0 0) .nil) (.dir .nil) ["d"] = none :=
  ⟨C7_amended_other_entries.1 "s" false 0 0 .nil (.dir .nil),
   C7_amended_other_entries.2.1 "lnk" 0 0 .nil (.dir .nil) ["d"],
   C7_amended_other_entries.2.2 "sock" 0 0 .nil (.dir .nil) ["d"] rfl⟩

theorem copyFileNodeM_frame (sN d : FNode) (tp : FPath) (d2 : FNode) (ops : List FsOp)
    (h : copyFileNodeM sN d tp = some (d2, ops)) (q : FPath)
    (h1 : ¬ pfx tp q = true) (h2 : ¬ pfx q tp = true) :
    getAt d2 q = getAt d q := by
  obtain ⟨d1, ops1, he, hcase⟩ := copyFileNodeM_inv sN d tp d2 ops h
  have hqd : ¬ pfx q tp.dropLast = true := fun hh =>
    h2 (pfx_trans q tp.dropLast tp hh (pfx_dropLast tp))
  have he1 : getAt d1 q = getAt d q := by
    rcases ensureDirM_cases d tp.dropLast d1 ops1 he with ⟨_, rfl, _⟩ | ⟨_, hmk, _⟩
    · rfl
    · exact mkdirRecM_frame tp.dropLast d d1 q hmk hqd
  rcases hcase with ⟨_, ss, ts, _, _, ⟨_, rfl, _⟩ | ⟨_, r2, hd, _⟩⟩ | ⟨_, r2, hd, _⟩
  · exact he1
  · obtain ⟨c, m, a, pcs, _, _, _, _, hd2, _⟩ := doCopyM_inv sN d1 tp d2 r2 hd
    rw [hd2, setAt_frame tp d1 (.file c m a) q h1 h2]
    exact he1
  · obtain ⟨c, m, a, pcs, _, _, _, _, hd2, _⟩ := doCopyM_inv sN d1 tp d2 r2 hd
    rw [hd2, setAt_frame tp d1 (.file c m a) q h1 h2]
    exact he1

theorem FDir.keys_cons (n : String) (node : FNode) (rest : FDir) :
    (FDir.cons n node rest).keys = n :: rest.keys := rfl

mutual

theorem copyDirM_frame (sN d : FNode) (tp : FPath) (d2 : FNode) (ops : List FsOp)
    (h : copyDirM sN d tp = some (d2, ops)) (q : FPath)
    (h1 : ¬ pfx tp q = true) (h2 : ¬ pfx q tp = true) :
    getAt d2 q = getAt d q := by
  obtain ⟨cs, d1, ops1, ops2, hsn, he, hl, _⟩ := copyDirM_inv sN d tp d2 ops h
  have he1 : getAt d1 q = getAt d q := by
    rcases ensureDirM_cases d tp d1 ops1 he with ⟨_, rfl, _⟩ | ⟨_, hmk, _⟩
    · rfl
    · exact mkdirRecM_frame tp d d1 q hmk h2
  have hcond : ∀ m ∈ FDir.keys cs,
      ¬ pfx (tp ++ [m]) q = true ∧ ¬ pfx q (tp ++ [m]) = true := by
    intro m _
    constructor
    · intro hh
      exact h1 (pfx_trans tp (tp ++ [m]) q (pfx_append tp [m]) hh)
    · intro hh
      rcases (pfx_snoc_iff tp m q).mp hh with hh2 | rfl
      · exact h2 hh2
      · exact h1 (pfx_append tp [m])
  rw [copyListM_frame cs d1 tp d2 ops2 hl q hcond]
  exact he1

theorem copyListM_frame (cs : FDir) (d : FNode) (tp : FPath) (d2 : FNode) (ops : List FsOp)
    (h : copyListM cs d tp = some (d2, ops)) (q : FPath)
    (hcond : ∀ m ∈ FDir.keys cs,
      ¬ pfx (tp ++ [m]) q = true ∧ ¬ pfx q (tp ++ [m]) = true) :
    getAt d2 q = getAt d q := by
  cases cs with
  | nil =>
    simp only [copyListM, Option.some_inj, Prod.mk.injEq] at h
    rw [h.1]
  | cons n node rest =>
    have hhead := hcond n (by rw [FDir.keys_cons]; exact List.mem_cons_self n _)
    have hrestc : ∀ m ∈ FDir.keys rest,
        ¬ pfx (tp ++ [m]) q = true ∧ ¬ pfx q (tp ++ [m]) = true := by
      intro m hm
      exact hcond m (by rw [FDir.keys_cons]; exact List.mem_cons_of_mem n hm)
    cases node with
    | dir ds =>
      obtain ⟨d1, ops1, ops2, hstep, hrest, _⟩ :=
        copyListM_cons_dir_inv n ds rest d tp d2 ops h
      rw [copyListM_frame rest d1 tp d2 ops2 hrest q hrestc]
      exact copyDirM_frame (.dir ds) d (tp ++ [n]) d1 ops1 hstep q hhead.1 hhead.2
    | file c m a =>
      obtain ⟨d1, ops1, ops2, hstep, hrest, _⟩ :=
        copyListM_cons_file_inv n c m a rest d tp d2 ops h
      rw [copyListM_frame rest d1 tp d2 ops2 hrest q hrestc]
      exact copyFileNodeM_frame (.file c m a) d (tp ++ [n]) d1 ops1 hstep q hhead.1 hhead.2
    | other ok m a =>
      obtain ⟨hok, d1, ops1, ops2, hstep, hrest, _⟩ :=
        copyListM_cons_other_inv n ok m a rest d tp d2 ops h
      rw [copyListM_frame rest d1 tp d2 ops2 hrest q hrestc]
      exact copyFileNodeM_frame (.other ok m a) d (tp ++ [n]) d1 ops1 hstep q hhead.1 hhead.2

end

theorem runCopyL_frame (cs : FDir) (d : FNode) (d2 : FNode) (ops : List FsOp)
    (h : runCopyL cs d = some (d2, ops)) (q : FPath)
    (hcond : ∀ m ∈ FDir.keys cs, ¬ pfx [m] q = true ∧ ¬ pfx q [m] = true) :
    getAt d2 q = getAt d q := by
  induction cs using FDir.recList generalizing d ops with
  | hnil =>
    simp only [runCopyL, Option.some_inj, Prod.mk.injEq] at h
    rw [h.1]
  | hcons n node rest ih =>
    have hhead := hcond n (by rw [FDir.keys_cons]; exact List.mem_cons_self n _)
    have hrestc : ∀ m ∈ FDir.keys rest, ¬ pfx [m] q = true ∧ ¬ pfx q [m] = true := by
      intro m hm
      exact hcond m (by rw [FDir.keys_cons]; exact List.mem_cons_of_mem n hm)
    cases node with
    | dir ds =>
      obtain ⟨d1, ops1, ops2, hstep, hrest, _⟩ := runCopyL_cons_dir_inv n ds rest d d2 ops h
      rw [ih d1 ops2 hrest hrestc]
      exact copyDirM_frame (.dir ds) d [n] d1 ops1 hstep q hhead.1 hhead.2
    | file c m a =>
      obtain ⟨d1, ops1, ops2, hstep, hrest, _⟩ := runCopyL_cons_file_inv n c m a rest d d2 ops h
      rw [ih d1 ops2 hrest hrestc]
      exact copyFileNodeM_frame (.file c m a) d [n] d1 ops1 hstep q hhead.1 hhead.2
    | other ok m a =>
      rw [runCopyL_cons_other] at h
      exact ih d ops h hrestc

theorem FDir.lookup_none_iff_keys (cs : FDir) (n : String) :
    cs.lookup n = none ↔ n ∉ cs.keys := by
  induction cs using FDir.recList with
  | hnil => simp [FDir.lookup, FDir.keys]
  | hcons m node rest ih =>
    by_cases hm : m = n
    · subst hm
      simp [FDir.lookup, FDir.keys]
    · simp only [FDir.lookup, if_neg hm, FDir.keys, List.mem_cons, not_or, ih]
      constructor
      · intro h2
        exact ⟨fun hh => hm hh.symm, h2⟩
      · intro h2
        exact h2.2

theorem ensureDirM_keeps_not_exists (d : FNode) (tp : FPath) (d1 : FNode)
    (ops1 : List FsOp) (he : ensureDirM d tp.dropLast = some (d1, ops1))
    (hex : pathExistsM d tp = false) : pathExistsM d1 tp = false := by
  rcases ensureDirM_cases d tp.dropLast d1 ops1 he with ⟨_, rfl, _⟩ | ⟨hpe, hmk, _⟩
  · exact hex
  · cases hsa : statAt d1 tp with
    | none => simp [pathExistsM, hsa]
    | some s =>
      exfalso
      simp only [statAt] at hsa
      cases hg : getAt d1 tp with
      | none => rw [hg] at hsa; simp at hsa
      | some node =>
        rw [hg] at hsa
        simp only [Option.some_bind] at hsa
        rcases mkdirRecM_get_cases tp.dropLast d d1 tp node hmk hg with hg2 | ⟨hpfx, _⟩
        · have hx : pathExistsM d tp = true := by
            simp [pathExistsM, statAt, hg2, hsa]
          rw [hx] at hex
          exact Bool.noConfusion hex
        · cases tp with
          | nil =>
            have hx : pathExistsM d [] = true := by
              cases d with
              | dir cs0 => simp [pathExistsM, statAt, getAt, statNode]
              | file c m a => simp [mkdirRecM] at hmk
              | other ok m a => simp [mkdirRecM] at hmk
            simp only [List.dropLast_nil] at hpe
            rw [hx] at hpe
            exact Bool.noConfusion hpe
          | cons x xs =>
            have hlen := pfx_length_le _ _ hpfx
            simp [List.length_dropLast] at hlen

theorem copyFileNodeM_fresh_write (c : String) (m a : ℚ) (d : FNode) (tp : FPath)
    (d2 : FNode) (ops : List FsOp)
    (h : copyFileNodeM (.file c m a) d tp = some (d2, ops))
    (hex : pathExistsM d tp = false) :
    getAt d2 tp = some (.file c m a) := by
  obtain ⟨d1, ops1, he, hcase⟩ := copyFileNodeM_inv (.file c m a) d tp d2 ops h
  have hex1 : pathExistsM d1 tp = false := ensureDirM_keeps_not_exists d tp d1 ops1 he hex
  rcases hcase with ⟨hp, _⟩ | ⟨_, r2, hd, _⟩
  · exfalso
    rw [hex1] at hp
    exact Bool.noConfusion hp
  · obtain ⟨c2, m2, a2, pcs, hceq, _, hpar, _, hd2, _⟩ := doCopyM_inv (.file c m a) d1 tp d2 r2 hd
    have hc2 : c2 = c ∧ m2 = m ∧ a2 = a := by
      cases hceq
      exact ⟨rfl, rfl, rfl⟩
    obtain ⟨rfl, rfl, rfl⟩ := hc2
    rw [hd2]
    exact setAt_get_self tp d1 (.file c2 m2 a2) ⟨pcs, hpar⟩

/-- Names absent from the source listing (or present only as
non-file/non-directory dirents) are never created by the top-level copy
loop. -/
theorem runCopyL_keeps_absent (cs : FDir) (d : FNode) (d2 : FNode) (ops : List FsOp)
    (X : String) (hwf : WFd cs = true)
    (hsrc : ∀ node, cs.lookup X = some node →
      node.isFile = false ∧ node.isDirectory = false)
    (hd : getAt d [X] = none)
    (h : runCopyL cs d = some (d2, ops)) : getAt d2 [X] = none := by
  induction cs using FDir.recList generalizing d ops with
  | hnil =>
    simp only [runCopyL, Option.some_inj, Prod.mk.injEq] at h
    rw [← h.1]
    exact hd
  | hcons n node rest ih =>
    simp only [WFd, Bool.and_eq_true] at hwf
    by_cases hnx : n = X
    · subst hnx
      have hn := hsrc node (by simp [FDir.lookup])
      cases node with
      | file c m a => simp [FNode.isFile] at hn
      | dir ds => simp [FNode.isDirectory] at hn
      | other ok m a =>
        rw [runCopyL_cons_other] at h
        have hrest : ∀ node2, rest.lookup n = some node2 →
            node2.isFile = false ∧ node2.isDirectory = false := by
          intro node2 hl
          rw [Option.isNone_iff_eq_none.mp hwf.1.1] at hl
          exact absurd hl (by simp)
        exact ih d ops hwf.2 hrest hd h
    · have hrest : ∀ node2, rest.lookup X = some node2 →
          node2.isFile = false ∧ node2.isDirectory = false := by
        intro node2 hl
        refine hsrc node2 ?_
        simp [FDir.lookup, hnx, hl]
      cases node with
      | dir ds =>
        obtain ⟨d1, ops1, ops2, hstep, hrun, _⟩ := runCopyL_cons_dir_inv n ds rest d d2 ops h
        refine ih d1 ops2 hwf.2 hrest ?_ hrun
        rw [copyDirM_frame (.dir ds) d [n] d1 ops1 hstep [X]
          (by simp [pfx_singleton_iff, hnx]) (by simp [pfx_singleton_iff]; intro hh; exact hnx hh.symm)]
        exact hd
      | file c m a =>
        obtain ⟨d1, ops1, ops2, hstep, hrun, _⟩ := runCopyL_cons_file_inv n c m a rest d d2 ops h
        refine ih d1 ops2 hwf.2 hrest ?_ hrun
        rw [copyFileNodeM_frame (.file c m a) d [n] d1 ops1 hstep [X]
          (by simp [pfx_singleton_iff, hnx]) (by simp [pfx_singleton_iff]; intro hh; exact hnx hh.symm)]
        exact hd
      | other ok m a =>
        rw [runCopyL_cons_other] at h
        exact ih d ops hwf.2 hrest hd h

/-- The top-level copy loop writes every source file entry that is new at
the destination, with the source's content and both timestamps. -/
theorem runCopyL_writes_file (cs : FDir) (d : FNode) (d2 : FNode) (ops : List FsOp)
    (Y : String) (cY : String) (mY aY : ℚ) (hwf : WFd cs = true)
    (hsrc : cs.lookup Y = some (.file cY mY aY))
    (hd : getAt d [Y] = none)
    (h : runCopyL cs d = some (d2, ops)) : getAt d2 [Y] = some (.file cY mY aY) := by
  induction cs using FDir.recList generalizing d ops with
  | hnil => simp [FDir.lookup] at hsrc
  | hcons n node rest ih =>
    simp only [WFd, Bool.and_eq_true] at hwf
    by_cases hny : n = Y
    · subst hny
      have hnode : node = .file cY mY aY := by
        simpa [FDir.lookup] using hsrc
      subst hnode
      obtain ⟨d1, ops1, ops2, hstep, hrun, _⟩ := runCopyL_cons_file_inv n cY mY aY rest d d2 ops h
      have hd1 : getAt d1 [n] = some (.file cY mY aY) := by
        refine copyFileNodeM_fresh_write cY mY aY d [n] d1 ops1 hstep ?_
        simp [pathExistsM, statAt, hd]
      have hnk : n ∉ FDir.keys rest :=
        (FDir.lookup_none_iff_keys rest n).mp (Option.isNone_iff_eq_none.mp hwf.1.1)
      rw [runCopyL_frame rest d1 d2 ops2 hrun [n] ?_]
      · exact hd1
      · intro m hm
        have hmn : ¬ m = n := fun hh => hnk (hh ▸ hm)
        constructor
        · simp [pfx_singleton_iff, hmn]
        · simp [pfx_singleton_iff]
          intro hh
          exact hmn hh.symm
    · have hrest : rest.lookup Y = some (.file cY mY aY) := by
        simpa [FDir.lookup, hny] using hsrc
      cases node with
      | dir ds =>
        obtain ⟨d1, ops1, ops2, hstep, hrun, _⟩ := runCopyL_cons_dir_inv n ds rest d d2 ops h
        refine ih d1 ops2 hwf.2 hrest ?_ hrun
        rw [copyDirM_frame (.dir ds) d [n] d1 ops1 hstep [Y]
          (by simp [pfx_singleton_iff, hny]) (by simp [pfx_singleton_iff]; intro hh; exact hny hh.symm)]
        exact hd
      | file c m a =>
        obtain ⟨d1, ops1, ops2, hstep, hrun, _⟩ := runCopyL_cons_file_inv n c m a rest d d2 ops h
        refine ih d1 ops2 hwf.2 hrest ?_ hrun
        rw [copyFileNodeM_frame (.file c m a) d [n] d1 ops1 hstep [Y]
          (by simp [pfx_singleton_iff, hny]) (by simp [pfx_singleton_iff]; intro hh; exact hny hh.symm)]
        exact hd
      | other ok m a =>
        rw [runCopyL_cons_other] at h
        exact ih d ops hwf.2 hrest hd h

theorem runM_dir_eq (scs dcs : FDir) :
    runM (.dir scs) (.dir dcs) =
      (runCopyL scs (.dir (cleanupD (.dir scs) [] dcs).1)).map
        (fun r => (r.1, (cleanupD (.dir scs) [] dcs).2 ++ r.2)) := rfl

/-- C1: in `NaiveSync.run`, the cleanup sub-phase runs to completion
before any copy operation: the operation trace of a completed run is a
block of deletions followed by a block of creations/writes with no
interleaving.  Consequently, whatever the order in which the
(well-formed, i.e. duplicate-free) directory listings enumerate their
entries, a stale destination file `X` whose mapped source path does not
exist is absent after the run, and a new source file `Y` (no destination
entry of that name beforehand) is present with the source's content and
timestamps. -/
theorem C1_cleanup_completes_before_copy (scs dcs : FDir) (X Y : String)
    (nodeX : FNode) (cY : String) (mY aY : ℚ) (d2 : FNode) (ops : List FsOp)
    (hwfd : WFd dcs = true) (hwfs : WFd scs = true)
    (hX : dcs.lookup X = some nodeX) (hXfile : nodeX.isFile = true)
    (hXsrc : pathExistsM (.dir scs) [X] = false)
    (hY : scs.lookup Y = some (.file cY mY aY))
    (hYnew : dcs.lookup Y = none)
    (hrun : runM (.dir scs) (.dir dcs) = some (d2, ops)) :
    getAt d2 [X] = none ∧ getAt d2 [Y] = some (.file cY mY aY) ∧
    ∃ ops1 ops2, ops = ops1 ++ ops2 ∧
      (∀ op ∈ ops1, op.isDelete = true) ∧ (∀ op ∈ ops2, op.isDelete = false) := by
  rw [runM_dir_eq] at hrun
  cases hrc : runCopyL scs (.dir (cleanupD (.dir scs) [] dcs).1) with
  | none => rw [hrc] at hrun; simp at hrun
  | some r =>
    obtain ⟨dr, opsr⟩ := r
    rw [hrc] at hrun
    simp only [Option.map_some', Option.some_inj, Prod.mk.injEq] at hrun
    obtain ⟨hd2, hops⟩ := hrun
    subst hd2
    have hXsrc2 : pathExistsM (.dir scs) ([] ++ [X]) = false := by simpa using hXsrc
    have hclean := cleanupD_delete (.dir scs) [] dcs X nodeX hwfd hX hXsrc2 (Or.inl hXfile)
    have hXkind : ∀ node, scs.lookup X = some node →
        node.isFile = false ∧ node.isDirectory = false := by
      intro node hl
      have hsa : statAt (.dir scs) [X] = none := by
        cases hv : statAt (.dir scs) [X] with
        | none => rfl
        | some s =>
          rw [show pathExistsM (.dir scs) [X] = (statAt (.dir scs) [X]).isSome from rfl,
            hv] at hXsrc
          exact absurd hXsrc (by simp)
      simp only [statAt, getAt_dirChildren, hl, Option.some_bind] at hsa
      cases node with
      | file c m a => simp [statNode] at hsa
      | dir ds => simp [statNode] at hsa
      | other ok m a => exact ⟨rfl, rfl⟩
    have hXabs : getAt dr [X] = none := by
      refine runCopyL_keeps_absent scs (.dir (cleanupD (.dir scs) [] dcs).1) dr opsr X
        hwfs hXkind ?_ hrc
      rw [getAt_dirChildren]
      exact hclean.1
    have hYpres : getAt dr [Y] = some (.file cY mY aY) := by
      refine runCopyL_writes_file scs (.dir (cleanupD (.dir scs) [] dcs).1) dr opsr Y
        cY mY aY hwfs hY ?_ hrc
      rw [getAt_dirChildren]
      exact cleanupD_lookup_none (.dir scs) [] dcs Y hYnew
    refine ⟨hXabs, hYpres, (cleanupD (.dir scs) [] dcs).2, opsr, hops.symm,
      cleanupD_ops_delete (.dir scs) [] dcs, ?_⟩
    exact runCopyL_ops_nondelete scs (.dir (cleanupD (.dir scs) [] dcs).1) dr opsr hrc

theorem C1_witness :
    getAt (.dir (.cons "a.txt" (.file "1" 10 11) .nil)) ["stale.txt"] = none ∧
    getAt (.dir (.cons "a.txt" (.file "1" 10 11) .nil)) ["a.txt"] =
      some (.file "1" 10 11) ∧
    ∃ ops1 ops2,
      [FsOp.rm ["stale.txt"], FsOp.fsCopy ["a.txt"], FsOp.utimes ["a.txt"]] =
        ops1 ++ ops2 ∧
      (∀ op ∈ ops1, op.isDelete = true) ∧ (∀ op ∈ ops2, op.isDelete = false) :=
  C1_cleanup_completes_before_copy
    (.cons "a.txt" (.file "1" 10 11) .nil)
    (.cons "stale.txt" (.file "old" 5 5) .nil)
    "stale.txt" "a.txt" (.file "old" 5 5) "1" 10 11
    (.dir (.cons "a.txt" (.file "1" 10 11) .nil))
    [FsOp.rm ["stale.txt"], FsOp.fsCopy ["a.txt"], FsOp.utimes ["a.txt"]]
    (by decide) (by decide) rfl rfl rfl rfl rfl rfl

theorem pfx_snoc_same (tp : FPath) (n m : String)
    (h : pfx (tp ++ [n]) (tp ++ [m]) = true) : n = m := by
  rw [pfx_iff] at h
  obtain ⟨r, hr⟩ := h
  have hlen := congrArg List.length hr
  simp only [List.length_append, List.length_singleton] at hlen
  have hr0 : r = [] := List.length_eq_zero.mp (by omega)
  subst hr0
  simp only [List.append_nil, List.append_cancel_left_eq, List.cons.injEq] at hr
  exact hr.1.symm

theorem pfx_head_same (n m : String) (q : FPath)
    (h1 : pfx [n] q = true) (h2 : pfx [m] q = true) : n = m := by
  rw [pfx_iff] at h1 h2
  obtain ⟨a, rfl⟩ := h1
  obtain ⟨b, hb⟩ := h2
  simp only [List.singleton_append, List.cons.injEq] at hb
  exact hb.1

theorem pfx_dropLast_of_proper (q tp : FPath) (h : pfx q tp = true) (hne : q ≠ tp) :
    pfx q tp.dropLast = true := by
  rw [pfx_iff] at h
  obtain ⟨r, rfl⟩ := h
  cases r with
  | nil => simp at hne
  | cons x xs =>
    rw [pfx_iff]
    refine ⟨(x :: xs).dropLast, ?_⟩
    rw [List.dropLast_append_of_ne_nil _ (by simp)]

theorem dropLast_ne_self (tp : FPath) (h : tp ≠ []) : tp.dropLast ≠ tp := by
  intro hh
  have := congrArg List.length hh
  rw [List.length_dropLast] at this
  cases tp with
  | nil => exact h rfl
  | cons x xs => simp at this

theorem WFd_setEntry (cs : FDir) (n : String) (v : FNode)
    (hwf : WFd cs = true) (hv : WFn v = true) : WFd (cs.setEntry n v) = true := by
  induction cs using FDir.recList with
  | hnil => simp [FDir.setEntry, WFd, FDir.lookup, hv]
  | hcons m node rest ih =>
    simp only [WFd, Bool.and_eq_true] at hwf
    by_cases hm : m = n
    · subst hm
      simp only [FDir.setEntry, if_pos rfl, WFd, Bool.and_eq_true]
      exact ⟨⟨hwf.1.1, hv⟩, hwf.2⟩
    · simp only [FDir.setEntry, if_neg hm, WFd, Bool.and_eq_true]
      refine ⟨⟨?_, hwf.1.2⟩, ih hwf.2⟩
      rw [FDir.lookup_setEntry_ne rest n m v hm]
      exact hwf.1.1

theorem WFn_setAt (d : FNode) (tp : FPath) (v : FNode)
    (hwf : WFn d = true) (hv : WFn v = true) : WFn (setAt d tp v) = true := by
  induction tp generalizing d with
  | nil => simpa [setAt] using hv
  | cons n rest ih =>
    cases d with
    | file c m a => cases rest <;> simpa [setAt] using hwf
    | other ok m a => cases rest <;> simpa [setAt] using hwf
    | dir cs =>
      cases rest with
      | nil =>
        simp only [setAt, WFn]
        exact WFd_setEntry cs n v (by simpa [WFn] using hwf) hv
      | cons r rs =>
        simp only [setAt, WFn]
        refine WFd_setEntry cs n _ (by simpa [WFn] using hwf) ?_
        refine ih _ ?_
        cases hl : cs.lookup n with
        | none => simp [WFn, WFd]
        | some c =>
          simp only [Option.getD_some]
          exact WFd_lookup cs n c (by simpa [WFn] using hwf) hl

theorem WFn_mkdirRecM (d : FNode) (tgt : FPath) (d2 : FNode)
    (hwf : WFn d = true) (h : mkdirRecM d tgt = some d2) : WFn d2 = true := by
  induction tgt generalizing d d2 with
  | nil =>
    cases d with
    | dir cs =>
      simp only [mkdirRecM, Option.some_inj] at h
      rw [← h]
      exact hwf
    | file c m a => simp [mkdirRecM] at h
    | other ok m a => simp [mkdirRecM] at h
  | cons n rest ih =>
    cases d with
    | file c m a => simp [mkdirRecM] at h
    | other ok m a => simp [mkdirRecM] at h
    | dir cs =>
      simp only [mkdirRecM] at h
      cases hl : cs.lookup n with
      | some c =>
        rw [hl] at h
        have h2 : Option.map (fun c2 => FNode.dir (cs.setEntry n c2)) (mkdirRecM c rest)
            = some d2 := h
        cases hm : mkdirRecM c rest with
        | none => rw [hm] at h2; simp at h2
        | some c2 =>
          rw [hm] at h2
          simp only [Option.map_some', Option.some_inj] at h2
          rw [← h2]
          simp only [WFn]
          refine WFd_setEntry cs n c2 (by simpa [WFn] using hwf) ?_
          exact ih c c2 (WFd_lookup cs n c (by simpa [WFn] using hwf) hl) hm
      | none =>
        rw [hl] at h
        have h2 : Option.map (fun c2 => FNode.dir (cs.setEntry n c2))
            (mkdirRecM (FNode.dir FDir.nil) rest) = some d2 := h
        cases hm : mkdirRecM (.dir .nil) rest with
        | none => rw [hm] at h2; simp at h2
        | some c2 =>
          rw [hm] at h2
          simp only [Option.map_some', Option.some_inj] at h2
          rw [← h2]
          simp only [WFn]
          refine WFd_setEntry cs n c2 (by simpa [WFn] using hwf) ?_
          exact ih (.dir .nil) c2 (by simp [WFn, WFd]) hm

theorem WFn_copyFileNodeM (sN d : FNode) (tp : FPath) (d2 : FNode) (ops : List FsOp)
    (hwf : WFn d = true) (h : copyFileNodeM sN d tp = some (d2, ops)) :
    WFn d2 = true := by
  obtain ⟨d1, ops1, he, hcase⟩ := copyFileNodeM_inv sN d tp d2 ops h
  have hwf1 : WFn d1 = true := by
    rcases ensureDirM_cases d tp.dropLast d1 ops1 he with ⟨_, rfl, _⟩ | ⟨_, hmk, _⟩
    · exact hwf
    · exact WFn_mkdirRecM d tp.dropLast d1 hwf hmk
  rcases hcase with ⟨_, ss, ts, _, _, ⟨_, rfl, _⟩ | ⟨_, r2, hd, _⟩⟩ | ⟨_, r2, hd, _⟩
  · exact hwf1
  · obtain ⟨c, m, a, pcs, _, _, _, _, hd2, _⟩ := doCopyM_inv sN d1 tp d2 r2 hd
    rw [hd2]
    exact WFn_setAt d1 tp (.file c m a) hwf1 rfl
  · obtain ⟨c, m, a, pcs, _, _, _, _, hd2, _⟩ := doCopyM_inv sN d1 tp d2 r2 hd
    rw [hd2]
    exact WFn_setAt d1 tp (.file c m a) hwf1 rfl

mutual

theorem WFn_copyDirM (sN d : FNode) (tp : FPath) (d2 : FNode) (ops : List FsOp)
    (hwf : WFn d = true) (h : copyDirM sN d tp = some (d2, ops)) :
    WFn d2 = true := by
  obtain ⟨cs, d1, ops1, ops2, hsn, he, hl, _⟩ := copyDirM_inv sN d tp d2 ops h
  have hwf1 : WFn d1 = true := by
    rcases ensureDirM_cases d tp d1 ops1 he with ⟨_, rfl, _⟩ | ⟨_, hmk, _⟩
    · exact hwf
    · exact WFn_mkdirRecM d tp d1 hwf hmk
  exact WFn_copyListM cs d1 tp d2 ops2 hwf1 hl

theorem WFn_copyListM (cs : FDir) (d : FNode) (tp : FPath) (d2 : FNode) (ops : List FsOp)
    (hwf : WFn d = true) (h : copyListM cs d tp = some (d2, ops)) :
    WFn d2 = true := by
  cases cs with
  | nil =>
    simp only [copyListM, Option.some_inj, Prod.mk.injEq] at h
    rw [← h.1]
    exact hwf
  | cons n node rest =>
    cases node with
    | dir ds =>
      obtain ⟨d1, ops1, ops2, hstep, hrest, _⟩ :=
        copyListM_cons_dir_inv n ds rest d tp d2 ops h
      exact WFn_copyListM rest d1 tp d2 ops2
        (WFn_copyDirM (.dir ds) d (tp ++ [n]) d1 ops1 hwf hstep) hrest
    | file c m a =>
      obtain ⟨d1, ops1, ops2, hstep, hrest, _⟩ :=
        copyListM_cons_file_inv n c m a rest d tp d2 ops h
      exact WFn_copyListM rest d1 tp d2 ops2
        (WFn_copyFileNodeM (.file c m a) d (tp ++ [n]) d1 ops1 hwf hstep) hrest
    | other ok m a =>
      obtain ⟨hok, d1, ops1, ops2, hstep, hrest, _⟩ :=
        copyListM_cons_other_inv n ok m a rest d tp d2 ops h
      exact WFn_copyListM rest d1 tp d2 ops2
        (WFn_copyFileNodeM (.other ok m a) d (tp ++ [n]) d1 ops1 hwf hstep) hrest

end

theorem WFn_runCopyL (cs : FDir) (d : FNode) (d2 : FNode) (ops : List FsOp)
    (hwf : WFn d = true) (h : runCopyL cs d = some (d2, ops)) :
    WFn d2 = true := by
  induction cs using FDir.recList generalizing d ops with
  | hnil =>
    simp only [runCopyL, Option.some_inj, Prod.mk.injEq] at h
    rw [← h.1]
    exact hwf
  | hcons n node rest ih =>
    cases node with
    | dir ds =>
      obtain ⟨d1, ops1, ops2, hstep, hrest, _⟩ := runCopyL_cons_dir_inv n ds rest d d2 ops h
      exact ih d1 ops2 (WFn_copyDirM (.dir ds) d [n] d1 ops1 hwf hstep) hrest
    | file c m a =>
      obtain ⟨d1, ops1, ops2, hstep, hrest, _⟩ := runCopyL_cons_file_inv n c m a rest d d2 ops h
      exact ih d1 ops2 (WFn_copyFileNodeM (.file c m a) d [n] d1 ops1 hwf hstep) hrest
    | other ok m a =>
      rw [runCopyL_cons_other] at h
      exact ih d ops hwf h

mutual

theorem WFn_cleanupN (src : FNode) (rel : FPath) (t : FNode)
    (hwf : WFn t = true) : WFn (cleanupN src rel t).1 = true := by
  cases t with
  | dir cs =>
    simp only [cleanupN, WFn]
    exact WFd_cleanupD src rel cs (by simpa [WFn] using hwf)
  | file c m a => simpa [cleanupN] using hwf
  | other ok m a => simpa [cleanupN] using hwf

theorem WFd_cleanupD (src : FNode) (rel : FPath) (cs : FDir)
    (hwf : WFd cs = true) : WFd (cleanupD src rel cs).1 = true := by
  cases cs with
  | nil => simp [cleanupD, WFd]
  | cons n node rest =>
    simp only [WFd, Bool.and_eq_true] at hwf
    have hrestl : (cleanupD src rel rest).1.lookup n = none :=
      cleanupD_lookup_none src rel rest n (Option.isNone_iff_eq_none.mp hwf.1.1)
    cases node with
    | file c m a =>
      cases hex : pathExistsM src (rel ++ [n]) with
      | true =>
        rw [cleanupD_cons_file_keep src rel n c m a rest hex]
        simp only [WFd, Bool.and_eq_true]
        exact ⟨⟨by simp [hrestl], rfl⟩, WFd_cleanupD src rel rest hwf.2⟩
      | false =>
        rw [cleanupD_cons_file_del src rel n c m a rest hex]
        exact WFd_cleanupD src rel rest hwf.2
    | dir ds =>
      cases hex : pathExistsM src (rel ++ [n]) with
      | true =>
        rw [cleanupD_cons_dir_keep src rel n ds rest hex]
        simp only [WFd, Bool.and_eq_true]
        refine ⟨⟨by simp [hrestl], ?_⟩, WFd_cleanupD src rel rest hwf.2⟩
        exact WFn_cleanupN src (rel ++ [n]) (.dir ds) hwf.1.2
      | false =>
        rw [cleanupD_cons_dir_del src rel n ds rest hex]
        exact WFd_cleanupD src rel rest hwf.2
    | other ok m a =>
      rw [cleanupD_cons_other src rel n ok m a rest]
      simp only [WFd, Bool.and_eq_true]
      exact ⟨⟨by simp [hrestl], rfl⟩, WFd_cleanupD src rel rest hwf.2⟩

end

theorem copyFileNodeM_noops (sN d : FNode) (tp : FPath) (d2 : FNode)
    (h : copyFileNodeM sN d tp = some (d2, [])) : d2 = d := by
  obtain ⟨d1, ops1, he, hcase⟩ := copyFileNodeM_inv sN d tp d2 [] h
  rcases hcase with ⟨_, ss, ts, _, _, ⟨_, hd2, hops⟩ | ⟨_, r2, hd, hops⟩⟩ | ⟨_, r2, hd, hops⟩
  · rcases ensureDirM_cases d tp.dropLast d1 ops1 he with ⟨_, rfl, _⟩ | ⟨_, _, hop1⟩
    · exact hd2
    · rw [hop1] at hops
      simp at hops
  · obtain ⟨_, _, _, _, _, _, _, _, _, hr2⟩ := doCopyM_inv sN d1 tp d2 r2 hd
    rw [hr2] at hops
    simp at hops
  · obtain ⟨_, _, _, _, _, _, _, _, _, hr2⟩ := doCopyM_inv sN d1 tp d2 r2 hd
    rw [hr2] at hops
    simp at hops

mutual

theorem copyDirM_noops (sN d : FNode) (tp : FPath) (d2 : FNode)
    (h : copyDirM sN d tp = some (d2, [])) : d2 = d := by
  obtain ⟨cs, d1, ops1, ops2, hsn, he, hl, hops⟩ := copyDirM_inv sN d tp d2 [] h
  have hops1 : ops1 = [] ∧ ops2 = [] := by
    have := hops.symm
    rw [List.append_eq_nil] at this
    exact this
  rcases ensureDirM_cases d tp d1 ops1 he with ⟨_, rfl, _⟩ | ⟨_, _, hop1⟩
  · rw [hops1.2] at hl
    exact copyListM_noops cs _ tp d2 hl
  · rw [hop1] at hops1
    simp at hops1

theorem copyListM_noops (cs : FDir) (d : FNode) (tp : FPath) (d2 : FNode)
    (h : copyListM cs d tp = some (d2, [])) : d2 = d := by
  cases cs with
  | nil =>
    simp only [copyListM, Option.some_inj, Prod.mk.injEq] at h
    exact h.1.symm
  | cons n node rest =>
    cases node with
    | dir ds =>
      obtain ⟨d1, ops1, ops2, hstep, hrest, hops⟩ :=
        copyListM_cons_dir_inv n ds rest d tp d2 [] h
      have hops1 : ops1 = [] ∧ ops2 = [] := by
        have := hops.symm
        rw [List.append_eq_nil] at this
        exact this
      rw [hops1.1] at hstep
      rw [hops1.2] at hrest
      rw [copyListM_noops rest d1 tp d2 hrest]
      exact copyDirM_noops (.dir ds) d (tp ++ [n]) d1 hstep
    | file c m a =>
      obtain ⟨d1, ops1, ops2, hstep, hrest, hops⟩ :=
        copyListM_cons_file_inv n c m a rest d tp d2 [] h
      have hops1 : ops1 = [] ∧ ops2 = [] := by
        have := hops.symm
        rw [List.append_eq_nil] at this
        exact this
      rw [hops1.1] at hstep
      rw [hops1.2] at hrest
      rw [copyListM_noops rest d1 tp d2 hrest]
      exact copyFileNodeM_noops (.file c m a) d (tp ++ [n]) d1 hstep
    | other ok m a =>
      obtain ⟨hok, d1, ops1, ops2, hstep, hrest, hops⟩ :=
        copyListM_cons_other_inv n ok m a rest d tp d2 [] h
      have hops1 : ops1 = [] ∧ ops2 = [] := by
        have := hops.symm
        rw [List.append_eq_nil] at this
        exact this
      rw [hops1.1] at hstep
      rw [hops1.2] at hrest
      rw [copyListM_noops rest d1 tp d2 hrest]
      exact copyFileNodeM_noops (.other ok m a) d (tp ++ [n]) d1 hstep

end

theorem statAt_isSome_setAt (d : FNode) (tp : FPath) (c : String) (m a : ℚ) (pcs : FDir)
    (hpar : getAt d tp.dropLast = some (.dir pcs))
    (hnd : ∀ tcs, getAt d tp ≠ some (.dir tcs))
    (q : FPath) (hq : (statAt d q).isSome = true) :
    (statAt (setAt d tp (.file c m a)) q).isSome = true := by
  by_cases h1 : pfx tp q = true
  · by_cases heq : q = tp
    · subst heq
      have hg := setAt_get_self q d (.file c m a) ⟨pcs, hpar⟩
      simp [statAt, hg, statNode]
    · exfalso
      have hne : tp ≠ q := fun hh => heq hh.symm
      rw [pfx_iff] at h1
      obtain ⟨r, rfl⟩ := h1
      cases r with
      | nil => simp at hne
      | cons x xs =>
        have hg : ∃ v, getAt d (tp ++ x :: xs) = some v := by
          simp only [statAt] at hq
          cases hgg : getAt d (tp ++ x :: xs) with
          | none => rw [hgg] at hq; simp at hq
          | some v => exact ⟨v, rfl⟩
        obtain ⟨v, hv⟩ := hg
        obtain ⟨tcs, htcs⟩ := getAt_chain_dir d tp x xs v hv
        exact hnd tcs htcs
  · by_cases h2 : pfx q tp = true
    · have hqne : q ≠ tp := fun hh => h1 (hh ▸ pfx_refl tp)
      have hqd : pfx q tp.dropLast = true := pfx_dropLast_of_proper q tp h2 hqne
      have hqdir : ∃ qcs, getAt d q = some (.dir qcs) := by
        by_cases hqe : q = tp.dropLast
        · exact ⟨pcs, hqe ▸ hpar⟩
        · rw [pfx_iff] at hqd
          obtain ⟨r, hr⟩ := hqd
          cases r with
          | nil => exact absurd (by simpa using hr.symm) hqe
          | cons x xs =>
            rw [hr] at hpar
            exact getAt_chain_dir d q x xs _ hpar
      obtain ⟨qcs, hq2⟩ := hqdir
      obtain ⟨cs2, hg2⟩ := setAt_chain_dir tp d (.file c m a) q qcs h2 hqne hq2
      simp [statAt, hg2, statNode]
    · have hg := setAt_frame tp d (.file c m a) q h1 h2
      simpa [statAt, hg] using hq

theorem statAt_isSome_mkdirRecM (d : FNode) (tgt : FPath) (d2 : FNode)
    (hmk : mkdirRecM d tgt = some d2) (q : FPath) (hq : (statAt d q).isSome = true) :
    (statAt d2 q).isSome = true := by
  by_cases hp : pfx q tgt = true
  · obtain ⟨cs2, hg⟩ := mkdirRecM_chain tgt d d2 q hmk hp
    simp [statAt, hg, statNode]
  · have hg := mkdirRecM_frame tgt d d2 q hmk hp
    simpa [statAt, hg] using hq

theorem copyFileNodeM_stat_mono (sN d : FNode) (tp : FPath) (d2 : FNode) (ops : List FsOp)
    (h : copyFileNodeM sN d tp = some (d2, ops)) (q : FPath)
    (hq : (statAt d q).isSome = true) : (statAt d2 q).isSome = true := by
  obtain ⟨d1, ops1, he, hcase⟩ := copyFileNodeM_inv sN d tp d2 ops h
  have hq1 : (statAt d1 q).isSome = true := by
    rcases ensureDirM_cases d tp.dropLast d1 ops1 he with ⟨_, rfl, _⟩ | ⟨_, hmk, _⟩
    · exact hq
    · exact statAt_isSome_mkdirRecM d tp.dropLast d1 hmk q hq
  rcases hcase with ⟨_, ss, ts, _, _, ⟨_, rfl, _⟩ | ⟨_, r2, hd, _⟩⟩ | ⟨_, r2, hd, _⟩
  · exact hq1
  · obtain ⟨c, m, a, pcs, _, _, hpar, hnd, hd2, _⟩ := doCopyM_inv sN d1 tp d2 r2 hd
    rw [hd2]
    exact statAt_isSome_setAt d1 tp c m a pcs hpar hnd q hq1
  · obtain ⟨c, m, a, pcs, _, _, hpar, hnd, hd2, _⟩ := doCopyM_inv sN d1 tp d2 r2 hd
    rw [hd2]
    exact statAt_isSome_setAt d1 tp c m a pcs hpar hnd q hq1

mutual

theorem copyDirM_stat_mono (sN d : FNode) (tp : FPath) (d2 : FNode) (ops : List FsOp)
    (h : copyDirM sN d tp = some (d2, ops)) (q : FPath)
    (hq : (statAt d q).isSome = true) : (statAt d2 q).isSome = true := by
  obtain ⟨cs, d1, ops1, ops2, hsn, he, hl, _⟩ := copyDirM_inv sN d tp d2 ops h
  have hq1 : (statAt d1 q).isSome = true := by
    rcases ensureDirM_cases d tp d1 ops1 he with ⟨_, rfl, _⟩ | ⟨_, hmk, _⟩
    · exact hq
    · exact statAt_isSome_mkdirRecM d tp d1 hmk q hq
  exact copyListM_stat_mono cs d1 tp d2 ops2 hl q hq1

theorem copyListM_stat_mono (cs : FDir) (d : FNode) (tp : FPath) (d2 : FNode)
    (ops : List FsOp) (h : copyListM cs d tp = some (d2, ops)) (q : FPath)
    (hq : (statAt d q).isSome = true) : (statAt d2 q).isSome = true := by
  cases cs with
  | nil =>
    simp only [copyListM, Option.some_inj, Prod.mk.injEq] at h
    rw [← h.1]
    exact hq
  | cons n node rest =>
    cases node with
    | dir ds =>
      obtain ⟨d1, ops1, ops2, hstep, hrest, _⟩ :=
        copyListM_cons_dir_inv n ds rest d tp d2 ops h
      exact copyListM_stat_mono rest d1 tp d2 ops2 hrest q
        (copyDirM_stat_mono (.dir ds) d (tp ++ [n]) d1 ops1 hstep q hq)
    | file c m a =>
      obtain ⟨d1, ops1, ops2, hstep, hrest, _⟩ :=
        copyListM_cons_file_inv n c m a rest d tp d2 ops h
      exact copyListM_stat_mono rest d1 tp d2 ops2 hrest q
        (copyFileNodeM_stat_mono (.file c m a) d (tp ++ [n]) d1 ops1 hstep q hq)
    | other ok m a =>
      obtain ⟨hok, d1, ops1, ops2, hstep, hrest, _⟩ :=
        copyListM_cons_other_inv n ok m a rest d tp d2 ops h
      exact copyListM_stat_mono rest d1 tp d2 ops2 hrest q
        (copyFileNodeM_stat_mono (.other ok m a) d (tp ++ [n]) d1 ops1 hstep q hq)

end

theorem runCopyL_stat_mono (cs : FDir) (d : FNode) (d2 : FNode) (ops : List FsOp)
    (h : runCopyL cs d = some (d2, ops)) (q : FPath)
    (hq : (statAt d q).isSome = true) : (statAt d2 q).isSome = true := by
  induction cs using FDir.recList generalizing d ops with
  | hnil =>
    simp only [runCopyL, Option.some_inj, Prod.mk.injEq] at h
    rw [← h.1]
    exact hq
  | hcons n node rest ih =>
    cases node with
    | dir ds =>
      obtain ⟨d1, ops1, ops2, hstep, hrest, _⟩ := runCopyL_cons_dir_inv n ds rest d d2 ops h
      exact ih d1 ops2 hrest (copyDirM_stat_mono (.dir ds) d [n] d1 ops1 hstep q hq)
    | file c m a =>
      obtain ⟨d1, ops1, ops2, hstep, hrest, _⟩ := runCopyL_cons_file_inv n c m a rest d d2 ops h
      exact ih d1 ops2 hrest (copyFileNodeM_stat_mono (.file c m a) d [n] d1 ops1 hstep q hq)
    | other ok m a =>
      rw [runCopyL_cons_other] at h
      exact ih d ops h hq

/-- After the unconditional copy tail has run, a further `copyFile` of
the same source file onto the same target is a skip. -/
theorem doCopyM_settles (sN d1 : FNode) (tp : FPath) (d2 : FNode) (r2 : List FsOp)
    (hd : doCopyM sN d1 tp = some (d2, r2)) :
    copyFileNodeM sN d2 tp = some (d2, []) := by
  obtain ⟨c, m, a, pcs, hsn, htp, hpar, hnd, hd2, _⟩ := doCopyM_inv sN d1 tp d2 r2 hd
  subst hsn
  have hg : getAt d2 tp = some (.file c m a) := by
    rw [hd2]
    exact setAt_get_self tp d1 (.file c m a) ⟨pcs, hpar⟩
  have hts : statAt d2 tp = some ⟨false, m, a⟩ := by
    simp [statAt, hg, statNode]
  have hpard : ∃ pcs2, getAt d2 tp.dropLast = some (.dir pcs2) := by
    rw [hd2]
    exact setAt_chain_dir tp d1 (.file c m a) tp.dropLast pcs (pfx_dropLast tp)
      (dropLast_ne_self tp htp) hpar
  obtain ⟨pcs2, hpard2⟩ := hpard
  have hpar2 : pathExistsM d2 tp.dropLast = true := by
    simp [pathExistsM, statAt, hpard2, statNode]
  have hp2 : pathExistsM d2 tp = true := by
    simp [pathExistsM, hts]
  simp [copyFileNodeM, ensureDirM_exists d2 tp.dropLast hpar2, hp2, statNode, hts,
    jsRound_sub_self, jsRound_zero]

/-- A completed `copyFile` leaves a state on which the same `copyFile`
is a no-op skip. -/
theorem copyFileNodeM_settles (sN d : FNode) (tp : FPath) (d2 : FNode) (ops : List FsOp)
    (_htp : tp ≠ []) (h : copyFileNodeM sN d tp = some (d2, ops)) :
    copyFileNodeM sN d2 tp = some (d2, []) := by
  obtain ⟨d1, ops1, he, hcase⟩ := copyFileNodeM_inv sN d tp d2 ops h
  rcases hcase with ⟨hp, ss, ts, hss, hts, hsub⟩ | ⟨hp, r2, hd, _⟩
  · rcases hsub with ⟨hz, rfl, _⟩ | ⟨_, r2, hd, _⟩
    · rcases ensureDirM_cases d tp.dropLast d2 ops1 he with ⟨hpar1, hd1, _⟩ | ⟨_, hmk, _⟩
      · subst hd1
        simp [copyFileNodeM, ensureDirM_exists d2 tp.dropLast hpar1, hp, hss, hts, hz]
      · obtain ⟨cs2, hg⟩ := mkdirRecM_chain tp.dropLast d d2 tp.dropLast hmk
          (pfx_refl tp.dropLast)
        have hpar1 : pathExistsM d2 tp.dropLast = true := by
          simp [pathExistsM, statAt, hg, statNode]
        simp [copyFileNodeM, ensureDirM_exists d2 tp.dropLast hpar1, hp, hss, hts, hz]
    · exact doCopyM_settles sN d1 tp d2 r2 hd
  · exact doCopyM_settles sN d1 tp d2 r2 hd

theorem copyFileNodeM_transfer (sN d dp : FNode) (tp : FPath) (htp : tp ≠ [])
    (hR1 : ∀ q, pfx tp q = true → getAt dp q = getAt d q)
    (hR2 : ∀ q, pfx q tp = true → q ≠ tp → (statAt d q).isSome = true →
      (statAt dp q).isSome = true)
    (h : copyFileNodeM sN d tp = some (d, [])) :
    copyFileNodeM sN dp tp = some (dp, []) := by
  obtain ⟨d1, ops1, he, hcase⟩ := copyFileNodeM_inv sN d tp d [] h
  rcases ensureDirM_cases d tp.dropLast d1 ops1 he with ⟨hpar, hd1, hop1⟩ | ⟨_, _, hop1⟩
  · subst hd1
    rcases hcase with ⟨hp, ss, ts, hss, hts, hsub⟩ | ⟨hp, r2, hd, hops⟩
    · rcases hsub with ⟨hz, _, _⟩ | ⟨_, r2, hd, hops⟩
      · have hparp : pathExistsM dp tp.dropLast = true :=
          hR2 tp.dropLast (pfx_dropLast tp) (dropLast_ne_self tp htp) hpar
        have hst : statAt dp tp = statAt d1 tp := by
          simp only [statAt, hR1 tp (pfx_refl tp)]
        have hpp : pathExistsM dp tp = true := by
          simpa [pathExistsM, hst] using hp
        have htsp : statAt dp tp = some ts := by
          rw [hst]
          exact hts
        simp [copyFileNodeM, ensureDirM_exists dp tp.dropLast hparp, hpp, hss, htsp, hz]
      · exfalso
        obtain ⟨_, _, _, _, _, _, _, _, _, hr2⟩ := doCopyM_inv sN d1 tp d1 r2 hd
        rw [hop1, hr2] at hops
        simp at hops
    · exfalso
      obtain ⟨_, _, _, _, _, _, _, _, _, hr2⟩ := doCopyM_inv sN d1 tp d1 r2 hd
      rw [hop1, hr2] at hops
      simp at hops
  · exfalso
    rcases hcase with ⟨_, ss, ts, _, _, ⟨_, _, hops⟩ | ⟨_, r2, _, hops⟩⟩ | ⟨_, r2, _, hops⟩ <;>
      rw [hop1] at hops <;> simp at hops

mutual

/-- Transfer of a no-op `copyDirectory` run along an agreement relation:
if another destination agrees with `d` at and below `tp` and has at least
the entries of `d` strictly above `tp`, a run that fixed `d` with no
operations also fixes it. -/
theorem copyDirM_transfer (sN d dp : FNode) (tp : FPath)
    (hR1 : ∀ q, pfx tp q = true → getAt dp q = getAt d q)
    (hR2 : ∀ q, pfx q tp = true → q ≠ tp → (statAt d q).isSome = true →
      (statAt dp q).isSome = true)
    (h : copyDirM sN d tp = some (d, [])) :
    copyDirM sN dp tp = some (dp, []) := by
  obtain ⟨cs, d1, ops1, ops2, hsn, he, hl, hops⟩ := copyDirM_inv sN d tp d [] h
  have hopse : ops1 = [] ∧ ops2 = [] := by
    have h2 := hops.symm
    rw [List.append_eq_nil] at h2
    exact h2
  rcases ensureDirM_cases d tp d1 ops1 he with ⟨hp, hd1, _⟩ | ⟨_, _, hop1⟩
  · rw [hd1] at hl
    rw [hopse.2] at hl
    have hstp : statAt dp tp = statAt d tp := by
      simp only [statAt, hR1 tp (pfx_refl tp)]
    have hpp : pathExistsM dp tp = true := by
      simpa [pathExistsM, hstp] using hp
    have hlp := copyListM_transfer cs d dp tp hR1 hR2 hl
    subst hsn
    simp [copyDirM, ensureDirM_exists dp tp hpp, hlp]
  · exfalso
    rw [hopse.1] at hop1
    simp at hop1

theorem copyListM_transfer (cs : FDir) (d dp : FNode) (tp : FPath)
    (hR1 : ∀ q, pfx tp q = true → getAt dp q = getAt d q)
    (hR2 : ∀ q, pfx q tp = true → q ≠ tp → (statAt d q).isSome = true →
      (statAt dp q).isSome = true)
    (h : copyListM cs d tp = some (d, [])) :
    copyListM cs dp tp = some (dp, []) := by
  cases cs with
  | nil => simp [copyListM]
  | cons n node rest =>
    have hR1n : ∀ q, pfx (tp ++ [n]) q = true → getAt dp q = getAt d q := by
      intro q hq
      exact hR1 q (pfx_trans tp (tp ++ [n]) q (pfx_append tp [n]) hq)
    have hR2n : ∀ q, pfx q (tp ++ [n]) = true → q ≠ tp ++ [n] →
        (statAt d q).isSome = true → (statAt dp q).isSome = true := by
      intro q hq hne hs
      rcases (pfx_snoc_iff tp n q).mp hq with hq2 | rfl
      · by_cases hqe : q = tp
        · subst hqe
          have hstp : statAt dp q = statAt d q := by
            simp only [statAt, hR1 q (pfx_refl q)]
          rw [hstp]
          exact hs
        · exact hR2 q hq2 hqe hs
      · exact absurd rfl hne
    cases node with
    | dir ds =>
      obtain ⟨d1, ops1, ops2, hstep, hrest, hops⟩ :=
        copyListM_cons_dir_inv n ds rest d tp d [] h
      have hopse : ops1 = [] ∧ ops2 = [] := by
        have h2 := hops.symm
        rw [List.append_eq_nil] at h2
        exact h2
      rw [hopse.1] at hstep
      have hd1 : d1 = d := copyDirM_noops (.dir ds) d (tp ++ [n]) d1 hstep
      rw [hd1] at hstep hrest
      rw [hopse.2] at hrest
      have hstepp := copyDirM_transfer (.dir ds) d dp (tp ++ [n]) hR1n hR2n hstep
      have hrestp := copyListM_transfer rest d dp tp hR1 hR2 hrest
      simp [copyListM, hstepp, hrestp]
    | file c m a =>
      obtain ⟨d1, ops1, ops2, hstep, hrest, hops⟩ :=
        copyListM_cons_file_inv n c m a rest d tp d [] h
      have hopse : ops1 = [] ∧ ops2 = [] := by
        have h2 := hops.symm
        rw [List.append_eq_nil] at h2
        exact h2
      rw [hopse.1] at hstep
      have hd1 : d1 = d := copyFileNodeM_noops (.file c m a) d (tp ++ [n]) d1 hstep
      rw [hd1] at hstep hrest
      rw [hopse.2] at hrest
      have hstepp := copyFileNodeM_transfer (.file c m a) d dp (tp ++ [n])
        (by simp) hR1n hR2n hstep
      have hrestp := copyListM_transfer rest d dp tp hR1 hR2 hrest
      simp [copyListM, hstepp, hrestp]
    | other ok m a =>
      obtain ⟨hok, d1, ops1, ops2, hstep, hrest, hops⟩ :=
        copyListM_cons_other_inv n ok m a rest d tp d [] h
      subst hok
      have hopse : ops1 = [] ∧ ops2 = [] := by
        have h2 := hops.symm
        rw [List.append_eq_nil] at h2
        exact h2
      rw [hopse.1] at hstep
      have hd1 : d1 = d := copyFileNodeM_noops (.other true m a) d (tp ++ [n]) d1 hstep
      rw [hd1] at hstep hrest
      rw [hopse.2] at hrest
      have hstepp := copyFileNodeM_transfer (.other true m a) d dp (tp ++ [n])
        (by simp) hR1n hR2n hstep
      have hrestp := copyListM_transfer rest d dp tp hR1 hR2 hrest
      simp [copyListM, hstepp, hrestp]

end

mutual

/-- A completed `copyDirectory` run leaves a state that the same run
fixes with an empty operation trace (source listing keys distinct). -/
theorem copyDirM_settles (sN d : FNode) (tp : FPath) (d2 : FNode) (ops : List FsOp)
    (hwf : WFn sN = true) (h : copyDirM sN d tp = some (d2, ops)) :
    copyDirM sN d2 tp = some (d2, []) := by
  obtain ⟨cs, d1, ops1, ops2, hsn, he, hl, _⟩ := copyDirM_inv sN d tp d2 ops h
  have hq1 : (statAt d1 tp).isSome = true := by
    rcases ensureDirM_cases d tp d1 ops1 he with ⟨hp, hd1, _⟩ | ⟨_, hmk, _⟩
    · rw [hd1]
      exact hp
    · obtain ⟨cs2, hg⟩ := mkdirRecM_chain tp d d1 tp hmk (pfx_refl tp)
      simp [statAt, hg, statNode]
  have hp2 : (statAt d2 tp).isSome = true :=
    copyListM_stat_mono cs d1 tp d2 ops2 hl tp hq1
  have hwfd : WFd cs = true := by
    rw [hsn] at hwf
    exact hwf
  have hl2 := copyListM_settles cs d1 tp d2 ops2 hwfd hl
  subst hsn
  simp [copyDirM, ensureDirM_exists d2 tp hp2, hl2]

theorem copyListM_settles (cs : FDir) (d : FNode) (tp : FPath) (d2 : FNode)
    (ops : List FsOp) (hwf : WFd cs = true) (h : copyListM cs d tp = some (d2, ops)) :
    copyListM cs d2 tp = some (d2, []) := by
  cases cs with
  | nil =>
    simp only [copyListM, Option.some_inj, Prod.mk.injEq] at h
    rw [← h.1]
    simp [copyListM]
  | cons n node rest =>
    simp only [WFd, Bool.and_eq_true] at hwf
    have hnmem : n ∉ FDir.keys rest :=
      (FDir.lookup_none_iff_keys rest n).mp (Option.isNone_iff_eq_none.mp hwf.1.1)
    cases node with
    | dir ds =>
      obtain ⟨d1, ops1, ops2, hstep, hrest, _⟩ :=
        copyListM_cons_dir_inv n ds rest d tp d2 ops h
      have hsettle1 : copyDirM (.dir ds) d1 (tp ++ [n]) = some (d1, []) :=
        copyDirM_settles (.dir ds) d (tp ++ [n]) d1 ops1 hwf.1.2 hstep
      have hrest2 := copyListM_settles rest d1 tp d2 ops2 hwf.2 hrest
      have hR1 : ∀ q, pfx (tp ++ [n]) q = true → getAt d2 q = getAt d1 q := by
        intro q hq
        refine copyListM_frame rest d1 tp d2 ops2 hrest q ?_
        intro m2 hm2
        constructor
        · intro hc
          obtain rfl := pfx_snoc_inj tp n m2 q hq hc
          exact hnmem hm2
        · intro hc
          obtain rfl := pfx_snoc_same tp n m2
            (pfx_trans (tp ++ [n]) q (tp ++ [m2]) hq hc)
          exact hnmem hm2
      have hR2 : ∀ q, pfx q (tp ++ [n]) = true → q ≠ tp ++ [n] →
          (statAt d1 q).isSome = true → (statAt d2 q).isSome = true := by
        intro q _ _ hs
        exact copyListM_stat_mono rest d1 tp d2 ops2 hrest q hs
      have hstep2 := copyDirM_transfer (.dir ds) d1 d2 (tp ++ [n]) hR1 hR2 hsettle1
      simp [copyListM, hstep2, hrest2]
    | file c m a =>
      obtain ⟨d1, ops1, ops2, hstep, hrest, _⟩ :=
        copyListM_cons_file_inv n c m a rest d tp d2 ops h
      have hsettle1 : copyFileNodeM (.file c m a) d1 (tp ++ [n]) = some (d1, []) :=
        copyFileNodeM_settles (.file c m a) d (tp ++ [n]) d1 ops1 (by simp) hstep
      have hrest2 := copyListM_settles rest d1 tp d2 ops2 hwf.2 hrest
      have hR1 : ∀ q, pfx (tp ++ [n]) q = true → getAt d2 q = getAt d1 q := by
        intro q hq
        refine copyListM_frame rest d1 tp d2 ops2 hrest q ?_
        intro m2 hm2
        constructor
        · intro hc
          obtain rfl := pfx_snoc_inj tp n m2 q hq hc
          exact hnmem hm2
        · intro hc
          obtain rfl := pfx_snoc_same tp n m2
            (pfx_trans (tp ++ [n]) q (tp ++ [m2]) hq hc)
          exact hnmem hm2
      have hR2 : ∀ q, pfx q (tp ++ [n]) = true → q ≠ tp ++ [n] →
          (statAt d1 q).isSome = true → (statAt d2 q).isSome = true := by
        intro q _ _ hs
        exact copyListM_stat_mono rest d1 tp d2 ops2 hrest q hs
      have hstep2 := copyFileNodeM_transfer (.file c m a) d1 d2 (tp ++ [n])
        (by simp) hR1 hR2 hsettle1
      simp [copyListM, hstep2, hrest2]
    | other ok m a =>
      obtain ⟨hok, d1, ops1, ops2, hstep, hrest, _⟩ :=
        copyListM_cons_other_inv n ok m a rest d tp d2 ops h
      subst hok
      have hsettle1 : copyFileNodeM (.other true m a) d1 (tp ++ [n]) = some (d1, []) :=
        copyFileNodeM_settles (.other true m a) d (tp ++ [n]) d1 ops1 (by simp) hstep
      have hrest2 := copyListM_settles rest d1 tp d2 ops2 hwf.2 hrest
      have hR1 : ∀ q, pfx (tp ++ [n]) q = true → getAt d2 q = getAt d1 q := by
        intro q hq
        refine copyListM_frame rest d1 tp d2 ops2 hrest q ?_
        intro m2 hm2
        constructor
        · intro hc
          obtain rfl := pfx_snoc_inj tp n m2 q hq hc
          exact hnmem hm2
        · intro hc
          obtain rfl := pfx_snoc_same tp n m2
            (pfx_trans (tp ++ [n]) q (tp ++ [m2]) hq hc)
          exact hnmem hm2
      have hR2 : ∀ q, pfx q (tp ++ [n]) = true → q ≠ tp ++ [n] →
          (statAt d1 q).isSome = true → (statAt d2 q).isSome = true := by
        intro q _ _ hs
        exact copyListM_stat_mono rest d1 tp d2 ops2 hrest q hs
      have hstep2 := copyFileNodeM_transfer (.other true m a) d1 d2 (tp ++ [n])
        (by simp) hR1 hR2 hsettle1
      simp [copyListM, hstep2, hrest2]

end

/-- A completed top-level copy loop leaves a destination that the same
loop fixes with an empty operation trace. -/
theorem runCopyL_settles (cs : FDir) (d : FNode) (d2 : FNode) (ops : List FsOp)
    (hwf : WFd cs = true) (h : runCopyL cs d = some (d2, ops)) :
    runCopyL cs d2 = some (d2, []) := by
  induction cs using FDir.recList generalizing d ops with
  | hnil =>
    simp only [runCopyL, Option.some_inj, Prod.mk.injEq] at h
    rw [← h.1]
    simp [runCopyL]
  | hcons n node rest ih =>
    simp only [WFd, Bool.and_eq_true] at hwf
    have hnmem : n ∉ FDir.keys rest :=
      (FDir.lookup_none_iff_keys rest n).mp (Option.isNone_iff_eq_none.mp hwf.1.1)
    cases node with
    | dir ds =>
      obtain ⟨d1, ops1, ops2, hstep, hrest, _⟩ :=
        runCopyL_cons_dir_inv n ds rest d d2 ops h
      have hsettle1 : copyDirM (.dir ds) d1 [n] = some (d1, []) :=
        copyDirM_settles (.dir ds) d [n] d1 ops1 hwf.1.2 hstep
      have hrest2 := ih d1 ops2 hwf.2 hrest
      have hR1 : ∀ q, pfx [n] q = true → getAt d2 q = getAt d1 q := by
        intro q hq
        refine runCopyL_frame rest d1 d2 ops2 hrest q ?_
        intro m2 hm2
        constructor
        · intro hc
          obtain rfl := pfx_head_same n m2 q hq hc
          exact hnmem hm2
        · intro hc
          obtain rfl := (pfx_singleton_iff n m2).mp (pfx_trans [n] q [m2] hq hc)
          exact hnmem hm2
      have hR2 : ∀ q, pfx q [n] = true → q ≠ [n] →
          (statAt d1 q).isSome = true → (statAt d2 q).isSome = true := by
        intro q _ _ hs
        exact runCopyL_stat_mono rest d1 d2 ops2 hrest q hs
      have hstep2 := copyDirM_transfer (.dir ds) d1 d2 [n] hR1 hR2 hsettle1
      simp [runCopyL, hstep2, hrest2]
    | file c m a =>
      obtain ⟨d1, ops1, ops2, hstep, hrest, _⟩ :=
        runCopyL_cons_file_inv n c m a rest d d2 ops h
      have hsettle1 : copyFileNodeM (.file c m a) d1 [n] = some (d1, []) :=
        copyFileNodeM_settles (.file c m a) d [n] d1 ops1 (by simp) hstep
      have hrest2 := ih d1 ops2 hwf.2 hrest
      have hR1 : ∀ q, pfx [n] q = true → getAt d2 q = getAt d1 q := by
        intro q hq
        refine runCopyL_frame rest d1 d2 ops2 hrest q ?_
        intro m2 hm2
        constructor
        · intro hc
          obtain rfl := pfx_head_same n m2 q hq hc
          exact hnmem hm2
        · intro hc
          obtain rfl := (pfx_singleton_iff n m2).mp (pfx_trans [n] q [m2] hq hc)
          exact hnmem hm2
      have hR2 : ∀ q, pfx q [n] = true → q ≠ [n] →
          (statAt d1 q).isSome = true → (statAt d2 q).isSome = true := by
        intro q _ _ hs
        exact runCopyL_stat_mono rest d1 d2 ops2 hrest q hs
      have hstep2 := copyFileNodeM_transfer (.file c m a) d1 d2 [n]
        (by simp) hR1 hR2 hsettle1
      simp [runCopyL, hstep2, hrest2]
    | other ok m a =>
      rw [runCopyL_cons_other] at h
      rw [runCopyL_cons_other]
      exact ih d ops hwf.2 h

theorem mkdirRecM_root_dir (cs0 : FDir) (p : FPath) (d1 : FNode)
    (h : mkdirRecM (.dir cs0) p = some d1) : ∃ cs1, d1 = .dir cs1 := by
  cases p with
  | nil =>
    simp only [mkdirRecM, Option.some_inj] at h
    exact ⟨cs0, h.symm⟩
  | cons n rest =>
    simp only [mkdirRecM] at h
    cases hlk : FDir.lookup cs0 n with
    | some c =>
      rw [hlk] at h
      have h2 : Option.map (fun c2 => FNode.dir (cs0.setEntry n c2)) (mkdirRecM c rest) =
          some d1 := h
      cases hm : mkdirRecM c rest with
      | none => rw [hm] at h2; simp at h2
      | some c2 =>
        rw [hm] at h2
        simp only [Option.map_some', Option.some_inj] at h2
        exact ⟨cs0.setEntry n c2, h2.symm⟩
    | none =>
      rw [hlk] at h
      have h2 : Option.map (fun c2 => FNode.dir (cs0.setEntry n c2))
          (mkdirRecM (.dir .nil) rest) = some d1 := h
      cases hm : mkdirRecM (.dir .nil) rest with
      | none => rw [hm] at h2; simp at h2
      | some c2 =>
        rw [hm] at h2
        simp only [Option.map_some', Option.some_inj] at h2
        exact ⟨cs0.setEntry n c2, h2.symm⟩

theorem setAt_root_dir (cs0 : FDir) (p : FPath) (v : FNode) (hp : p ≠ []) :
    ∃ cs1, setAt (.dir cs0) p v = .dir cs1 := by
  cases p with
  | nil => exact absurd rfl hp
  | cons n rest =>
    cases rest with
    | nil => exact ⟨cs0.setEntry n v, rfl⟩
    | cons x xs => exact ⟨_, rfl⟩

theorem ensureDirM_root_dir (cs0 : FDir) (p : FPath) (d1 : FNode) (ops1 : List FsOp)
    (h : ensureDirM (.dir cs0) p = some (d1, ops1)) : ∃ cs1, d1 = .dir cs1 := by
  rcases ensureDirM_cases (.dir cs0) p d1 ops1 h with ⟨_, hd1, _⟩ | ⟨_, hmk, _⟩
  · exact ⟨cs0, hd1⟩
  · exact mkdirRecM_root_dir cs0 p d1 hmk

theorem copyFileNodeM_root_dir (sN : FNode) (cs0 : FDir) (tp : FPath) (d2 : FNode)
    (ops : List FsOp) (htp : tp ≠ [])
    (h : copyFileNodeM sN (.dir cs0) tp = some (d2, ops)) : ∃ cs2, d2 = .dir cs2 := by
  obtain ⟨d1, ops1, he, hcase⟩ := copyFileNodeM_inv sN (.dir cs0) tp d2 ops h
  obtain ⟨cs1, hd1⟩ := ensureDirM_root_dir cs0 tp.dropLast d1 ops1 he
  rcases hcase with ⟨_, ss, ts, _, _, ⟨_, hdd, _⟩ | ⟨_, r2, hd, _⟩⟩ | ⟨_, r2, hd, _⟩
  · exact ⟨cs1, hdd.trans hd1⟩
  · obtain ⟨c, m, a, pcs, _, _, _, _, hd2, _⟩ := doCopyM_inv sN d1 tp d2 r2 hd
    rw [hd1] at hd2
    obtain ⟨cs2, hset⟩ := setAt_root_dir cs1 tp (.file c m a) htp
    exact ⟨cs2, hd2.trans hset⟩
  · obtain ⟨c, m, a, pcs, _, _, _, _, hd2, _⟩ := doCopyM_inv sN d1 tp d2 r2 hd
    rw [hd1] at hd2
    obtain ⟨cs2, hset⟩ := setAt_root_dir cs1 tp (.file c m a) htp
    exact ⟨cs2, hd2.trans hset⟩

mutual

theorem copyDirM_root_dir (sN : FNode) (cs0 : FDir) (tp : FPath) (d2 : FNode)
    (ops : List FsOp) (h : copyDirM sN (.dir cs0) tp = some (d2, ops)) :
    ∃ cs2, d2 = .dir cs2 := by
  obtain ⟨cs, d1, ops1, ops2, hsn, he, hl, _⟩ := copyDirM_inv sN (.dir cs0) tp d2 ops h
  obtain ⟨cs1, hd1⟩ := ensureDirM_root_dir cs0 tp d1 ops1 he
  rw [hd1] at hl
  exact copyListM_root_dir cs cs1 tp d2 ops2 hl

theorem copyListM_root_dir (cs : FDir) (cs0 : FDir) (tp : FPath) (d2 : FNode)
    (ops : List FsOp) (h : copyListM cs (.dir cs0) tp = some (d2, ops)) :
    ∃ cs2, d2 = .dir cs2 := by
  cases cs with
  | nil =>
    simp only [copyListM, Option.some_inj, Prod.mk.injEq] at h
    exact ⟨cs0, h.1.symm⟩
  | cons n node rest =>
    cases node with
    | dir ds =>
      obtain ⟨d1, ops1, ops2, hstep, hrest, _⟩ :=
        copyListM_cons_dir_inv n ds rest (.dir cs0) tp d2 ops h
      obtain ⟨cs1, hd1⟩ := copyDirM_root_dir (.dir ds) cs0 (tp ++ [n]) d1 ops1 hstep
      rw [hd1] at hrest
      exact copyListM_root_dir rest cs1 tp d2 ops2 hrest
    | file c m a =>
      obtain ⟨d1, ops1, ops2, hstep, hrest, _⟩ :=
        copyListM_cons_file_inv n c m a rest (.dir cs0) tp d2 ops h
      obtain ⟨cs1, hd1⟩ := copyFileNodeM_root_dir (.file c m a) cs0 (tp ++ [n]) d1 ops1
        (by simp) hstep
      rw [hd1] at hrest
      exact copyListM_root_dir rest cs1 tp d2 ops2 hrest
    | other ok m a =>
      obtain ⟨hok, d1, ops1, ops2, hstep, hrest, _⟩ :=
        copyListM_cons_other_inv n ok m a rest (.dir cs0) tp d2 ops h
      subst hok
      obtain ⟨cs1, hd1⟩ := copyFileNodeM_root_dir (.other true m a) cs0 (tp ++ [n]) d1 ops1
        (by simp) hstep
      rw [hd1] at hrest
      exact copyListM_root_dir rest cs1 tp d2 ops2 hrest

end

theorem runCopyL_root_dir (cs : FDir) (cs0 : FDir) (d2 : FNode) (ops : List FsOp)
    (h : runCopyL cs (.dir cs0) = some (d2, ops)) : ∃ cs2, d2 = .dir cs2 := by
  induction cs using FDir.recList generalizing cs0 ops with
  | hnil =>
    simp only [runCopyL, Option.some_inj, Prod.mk.injEq] at h
    exact ⟨cs0, h.1.symm⟩
  | hcons n node rest ih =>
    cases node with
    | dir ds =>
      obtain ⟨d1, ops1, ops2, hstep, hrest, _⟩ :=
        runCopyL_cons_dir_inv n ds rest (.dir cs0) d2 ops h
      obtain ⟨cs1, hd1⟩ := copyDirM_root_dir (.dir ds) cs0 [n] d1 ops1 hstep
      rw [hd1] at hrest
      exact ih cs1 ops2 hrest
    | file c m a =>
      obtain ⟨d1, ops1, ops2, hstep, hrest, _⟩ :=
        runCopyL_cons_file_inv n c m a rest (.dir cs0) d2 ops h
      obtain ⟨cs1, hd1⟩ := copyFileNodeM_root_dir (.file c m a) cs0 [n] d1 ops1
        (by simp) hstep
      rw [hd1] at hrest
      exact ih cs1 ops2 hrest
    | other ok m a =>
      rw [runCopyL_cons_other] at h
      exact ih cs0 ops h

/-- A pair present in a well-formed listing is exactly what lookup of
its name returns. -/
theorem FDir.lookup_of_mem_toList (cs : FDir) (n : String) (node : FNode)
    (hwf : WFd cs = true) (hm : (n, node) ∈ cs.toList) : cs.lookup n = some node := by
  induction cs using FDir.recList with
  | hnil => simp [FDir.toList] at hm
  | hcons m nd rest ih =>
    simp only [WFd, Bool.and_eq_true] at hwf
    simp only [FDir.toList, List.mem_cons, Prod.mk.injEq] at hm
    rcases hm with ⟨rfl, rfl⟩ | hm
    · simp [FDir.lookup]
    · have hlk := ih hwf.2 hm
      have hne : ¬ m = n := by
        intro hmn
        subst hmn
        rw [Option.isNone_iff_eq_none.mp hwf.1.1] at hlk
        exact Option.noConfusion hlk
      simp only [FDir.lookup, if_neg hne]
      exact hlk

mutual

/-- Cleanup is a no-op on a well-formed destination node all of whose
file and directory entries have existing mapped source paths. -/
theorem cleanupN_noop (src : FNode) (rel : FPath) (t : FNode)
    (hwf : WFn t = true)
    (hcs : ∀ q nd, q ≠ [] → getAt t q = some nd →
      nd.isFile = true ∨ nd.isDirectory = true → pathExistsM src (rel ++ q) = true) :
    cleanupN src rel t = (t, []) := by
  cases t with
  | dir cs =>
    have h2 := cleanupD_noop src rel cs hwf hcs
    simp [cleanupN, h2]
  | file c m a => simp [cleanupN]
  | other ok m a => simp [cleanupN]

theorem cleanupD_noop (src : FNode) (rel : FPath) (cs : FDir)
    (hwf : WFd cs = true)
    (hcs : ∀ q nd, q ≠ [] → getAt (.dir cs) q = some nd →
      nd.isFile = true ∨ nd.isDirectory = true → pathExistsM src (rel ++ q) = true) :
    cleanupD src rel cs = (cs, []) := by
  cases cs with
  | nil => simp [cleanupD]
  | cons n node rest =>
    simp only [WFd, Bool.and_eq_true] at hwf
    have hcsrest : ∀ q nd, q ≠ [] → getAt (.dir rest) q = some nd →
        nd.isFile = true ∨ nd.isDirectory = true → pathExistsM src (rel ++ q) = true := by
      intro q nd hq hg hk
      refine hcs q nd hq ?_ hk
      cases q with
      | nil => exact absurd rfl hq
      | cons mq qr =>
        rw [getAt_dir_cons]
        have hmq : ¬ n = mq := by
          intro hmn
          subst hmn
          rw [show getAt (FNode.dir rest) (n :: qr) =
              (match rest.lookup n with
                | some c => getAt c qr
                | none => none) from rfl,
            Option.isNone_iff_eq_none.mp hwf.1.1] at hg
          exact Option.noConfusion hg
        rw [if_neg hmq]
        exact hg
    have hrest := cleanupD_noop src rel rest hwf.2 hcsrest
    have hghead : getAt (.dir (.cons n node rest)) [n] = some node := by
      rw [getAt_dir_cons]
      simp [getAt]
    cases node with
    | file c m a =>
      have hex : pathExistsM src (rel ++ [n]) = true :=
        hcs [n] (.file c m a) (by simp) hghead (Or.inl rfl)
      rw [cleanupD_cons_file_keep src rel n c m a rest hex, hrest]
    | dir ds =>
      have hex : pathExistsM src (rel ++ [n]) = true :=
        hcs [n] (.dir ds) (by simp) hghead (Or.inr rfl)
      have hchild : ∀ q nd, q ≠ [] → getAt (.dir ds) q = some nd →
          nd.isFile = true ∨ nd.isDirectory = true →
          pathExistsM src ((rel ++ [n]) ++ q) = true := by
        intro q nd hq hg hk
        have h3 := hcs (n :: q) nd (by simp) ?_ hk
        · simpa using h3
        · rw [getAt_dir_cons, if_pos rfl]
          exact hg
      have hn := cleanupN_noop src (rel ++ [n]) (.dir ds) hwf.1.2 hchild
      rw [cleanupD_cons_dir_keep src rel n ds rest hex, hn, hrest]
      rfl
    | other ok m a =>
      rw [cleanupD_cons_other, hrest]

end

mutual

/-- Every file or directory surviving cleanup has an existing mapped
source path. -/
theorem cleanupN_CS (src : FNode) (rel : FPath) (t : FNode) (q : FPath) (nd : FNode)
    (hq : q ≠ []) (hg : getAt (cleanupN src rel t).1 q = some nd)
    (hk : nd.isFile = true ∨ nd.isDirectory = true) :
    pathExistsM src (rel ++ q) = true := by
  cases t with
  | dir cs =>
    have hg2 : getAt (.dir (cleanupD src rel cs).1) q = some nd := hg
    exact cleanupD_CS src rel cs q nd hq hg2 hk
  | file c m a =>
    cases q with
    | nil => exact absurd rfl hq
    | cons x xs =>
      have hg2 : (none : Option FNode) = some nd := hg
      exact Option.noConfusion hg2
  | other ok m a =>
    cases q with
    | nil => exact absurd rfl hq
    | cons x xs =>
      have hg2 : (none : Option FNode) = some nd := hg
      exact Option.noConfusion hg2

theorem cleanupD_CS (src : FNode) (rel : FPath) (cs : FDir) (q : FPath) (nd : FNode)
    (hq : q ≠ []) (hg : getAt (.dir (cleanupD src rel cs).1) q = some nd)
    (hk : nd.isFile = true ∨ nd.isDirectory = true) :
    pathExistsM src (rel ++ q) = true := by
  cases cs with
  | nil =>
    cases q with
    | nil => exact absurd rfl hq
    | cons x xs =>
      have hg2 : (none : Option FNode) = some nd := hg
      exact Option.noConfusion hg2
  | cons n node rest =>
    cases node with
    | file c m a =>
      cases hex : pathExistsM src (rel ++ [n]) with
      | true =>
        rw [cleanupD_cons_file_keep src rel n c m a rest hex] at hg
        cases q with
        | nil => exact absurd rfl hq
        | cons mq qr =>
          rw [getAt_dir_cons] at hg
          by_cases hmq : n = mq
          · rw [if_pos hmq] at hg
            cases qr with
            | nil =>
              subst hmq
              exact hex
            | cons y ys =>
              have hg2 : (none : Option FNode) = some nd := hg
              exact Option.noConfusion hg2
          · rw [if_neg hmq] at hg
            exact cleanupD_CS src rel rest (mq :: qr) nd (by simp) hg hk
      | false =>
        rw [cleanupD_cons_file_del src rel n c m a rest hex] at hg
        exact cleanupD_CS src rel rest q nd hq hg hk
    | dir ds =>
      cases hex : pathExistsM src (rel ++ [n]) with
      | true =>
        rw [cleanupD_cons_dir_keep src rel n ds rest hex] at hg
        cases q with
        | nil => exact absurd rfl hq
        | cons mq qr =>
          rw [getAt_dir_cons] at hg
          by_cases hmq : n = mq
          · rw [if_pos hmq] at hg
            cases qr with
            | nil =>
              subst hmq
              exact hex
            | cons y ys =>
              subst hmq
              have h3 := cleanupN_CS src (rel ++ [n]) (.dir ds) (y :: ys) nd
                (by simp) hg hk
              simpa using h3
          · rw [if_neg hmq] at hg
            exact cleanupD_CS src rel rest (mq :: qr) nd (by simp) hg hk
      | false =>
        rw [cleanupD_cons_dir_del src rel n ds rest hex] at hg
        exact cleanupD_CS src rel rest q nd hq hg hk
    | other ok m a =>
      rw [cleanupD_cons_other src rel n ok m a rest] at hg
      cases q with
      | nil => exact absurd rfl hq
      | cons mq qr =>
        rw [getAt_dir_cons] at hg
        by_cases hmq : n = mq
        · rw [if_pos hmq] at hg
          cases qr with
          | nil =>
            have hnd : FNode.other ok m a = nd := by
              simpa [getAt] using hg
            rcases hk with hk | hk <;> rw [← hnd] at hk <;>
              simp [FNode.isFile, FNode.isDirectory] at hk
          | cons y ys =>
            have hg2 : (none : Option FNode) = some nd := hg
            exact Option.noConfusion hg2
        · rw [if_neg hmq] at hg
          exact cleanupD_CS src rel rest (mq :: qr) nd (by simp) hg hk

end

/-- `copyFile` writes only at the target path and along its parent
chain, all of which exist in the source; so it preserves the invariant
that every destination file or directory has an existing source path. -/
theorem copyFileNodeM_CS (src sN d : FNode) (tp : FPath) (d2 : FNode) (ops : List FsOp)
    (hsrc : getAt src tp = some sN) (hss : (statNode sN).isSome = true)
    (h : copyFileNodeM sN d tp = some (d2, ops))
    (hcs : ∀ q nd, q ≠ [] → getAt d q = some nd →
      nd.isFile = true ∨ nd.isDirectory = true → pathExistsM src q = true) :
    ∀ q nd, q ≠ [] → getAt d2 q = some nd →
      nd.isFile = true ∨ nd.isDirectory = true → pathExistsM src q = true := by
  obtain ⟨d1, ops1, he, hcase⟩ := copyFileNodeM_inv sN d tp d2 ops h
  have hcs1 : ∀ q nd, q ≠ [] → getAt d1 q = some nd →
      nd.isFile = true ∨ nd.isDirectory = true → pathExistsM src q = true := by
    intro q2 nd2 hq2 hg2 hk2
    rcases ensureDirM_cases d tp.dropLast d1 ops1 he with ⟨_, hd1, _⟩ | ⟨_, hmk, _⟩
    · rw [hd1] at hg2
      exact hcs q2 nd2 hq2 hg2 hk2
    · rcases mkdirRecM_get_cases tp.dropLast d d1 q2 nd2 hmk hg2 with hold | ⟨hpfx, _⟩
      · exact hcs q2 nd2 hq2 hold hk2
      · have hq2tp : pfx q2 tp = true :=
          pfx_trans q2 tp.dropLast tp hpfx (pfx_dropLast tp)
        by_cases hqe : q2 = tp
        · subst hqe
          exact src_pfx_exists src q2 sN q2 hsrc hss (pfx_refl q2)
        · exact src_chain_exists src tp sN q2 hsrc hq2tp hqe
  intro q nd hq hg hk
  rcases hcase with ⟨_, ss, ts, _, _, ⟨_, hdd, _⟩ | ⟨_, r2, hd2, _⟩⟩ | ⟨_, r2, hd2, _⟩
  · rw [hdd] at hg
    exact hcs1 q nd hq hg hk
  · obtain ⟨c, m, a, pcs, hsn, htp, _, _, hset, _⟩ := doCopyM_inv sN d1 tp d2 r2 hd2
    rw [hset] at hg
    rcases setAt_get_cases tp d1 (.file c m a) q nd hg with hold | ⟨qs, rfl, hgf⟩ | ⟨hpfx, hne, _⟩
    · exact hcs1 q nd hq hold hk
    · cases qs with
      | nil =>
        have h4 := src_pfx_exists src tp sN tp hsrc hss (pfx_refl tp)
        simpa using h4
      | cons y ys =>
        have hg2 : (none : Option FNode) = some nd := hgf
        exact Option.noConfusion hg2
    · exact src_chain_exists src tp sN q hsrc hpfx hne
  · obtain ⟨c, m, a, pcs, hsn, htp, _, _, hset, _⟩ := doCopyM_inv sN d1 tp d2 r2 hd2
    rw [hset] at hg
    rcases setAt_get_cases tp d1 (.file c m a) q nd hg with hold | ⟨qs, rfl, hgf⟩ | ⟨hpfx, hne, _⟩
    · exact hcs1 q nd hq hold hk
    · cases qs with
      | nil =>
        have h4 := src_pfx_exists src tp sN tp hsrc hss (pfx_refl tp)
        simpa using h4
      | cons y ys =>
        have hg2 : (none : Option FNode) = some nd := hgf
        exact Option.noConfusion hg2
    · exact src_chain_exists src tp sN q hsrc hpfx hne

mutual

theorem copyDirM_CS (src sN d : FNode) (tp : FPath) (d2 : FNode) (ops : List FsOp)
    (hwfs : WFn sN = true) (hsrc : getAt src tp = some sN)
    (h : copyDirM sN d tp = some (d2, ops))
    (hcs : ∀ q nd, q ≠ [] → getAt d q = some nd →
      nd.isFile = true ∨ nd.isDirectory = true → pathExistsM src q = true) :
    ∀ q nd, q ≠ [] → getAt d2 q = some nd →
      nd.isFile = true ∨ nd.isDirectory = true → pathExistsM src q = true := by
  obtain ⟨cs, d1, ops1, ops2, hsn, he, hl, _⟩ := copyDirM_inv sN d tp d2 ops h
  have hss : (statNode sN).isSome = true := by
    rw [hsn]
    rfl
  have hcs1 : ∀ q nd, q ≠ [] → getAt d1 q = some nd →
      nd.isFile = true ∨ nd.isDirectory = true → pathExistsM src q = true := by
    intro q2 nd2 hq2 hg2 hk2
    rcases ensureDirM_cases d tp d1 ops1 he with ⟨_, hd1, _⟩ | ⟨_, hmk, _⟩
    · rw [hd1] at hg2
      exact hcs q2 nd2 hq2 hg2 hk2
    · rcases mkdirRecM_get_cases tp d d1 q2 nd2 hmk hg2 with hold | ⟨hpfx, _⟩
      · exact hcs q2 nd2 hq2 hold hk2
      · exact src_pfx_exists src tp sN q2 hsrc hss hpfx
  have hwfd : WFd cs = true := by
    rw [hsn] at hwfs
    exact hwfs
  have hsrc2 : ∀ pr, pr ∈ FDir.toList cs → getAt src (tp ++ [pr.1]) = some pr.2 := by
    intro pr hpr
    have hlk := FDir.lookup_of_mem_toList cs pr.1 pr.2 hwfd hpr
    rw [getAt_append, hsrc, hsn]
    show getAt (.dir cs) [pr.1] = some pr.2
    simp [getAt, hlk]
  exact copyListM_CS src cs d1 tp d2 ops2 hwfd hsrc2 hl hcs1

theorem copyListM_CS (src : FNode) (cs : FDir) (d : FNode) (tp : FPath) (d2 : FNode)
    (ops : List FsOp) (hwfd : WFd cs = true)
    (hsrc2 : ∀ pr, pr ∈ FDir.toList cs → getAt src (tp ++ [pr.1]) = some pr.2)
    (h : copyListM cs d tp = some (d2, ops))
    (hcs : ∀ q nd, q ≠ [] → getAt d q = some nd →
      nd.isFile = true ∨ nd.isDirectory = true → pathExistsM src q = true) :
    ∀ q nd, q ≠ [] → getAt d2 q = some nd →
      nd.isFile = true ∨ nd.isDirectory = true → pathExistsM src q = true := by
  cases cs with
  | nil =>
    simp only [copyListM, Option.some_inj, Prod.mk.injEq] at h
    rw [← h.1]
    exact hcs
  | cons n node rest =>
    simp only [WFd, Bool.and_eq_true] at hwfd
    have hsrcrest : ∀ pr, pr ∈ FDir.toList rest → getAt src (tp ++ [pr.1]) = some pr.2 := by
      intro pr hpr
      refine hsrc2 pr ?_
      simp only [FDir.toList, List.mem_cons]
      exact Or.inr hpr
    have hsrchead : getAt src (tp ++ [n]) = some node := by
      refine hsrc2 (n, node) ?_
      simp [FDir.toList]
    cases node with
    | dir ds =>
      obtain ⟨d1, ops1, ops2, hstep, hrest, _⟩ :=
        copyListM_cons_dir_inv n ds rest d tp d2 ops h
      have hmid := copyDirM_CS src (.dir ds) d (tp ++ [n]) d1 ops1 hwfd.1.2
        hsrchead hstep hcs
      exact copyListM_CS src rest d1 tp d2 ops2 hwfd.2 hsrcrest hrest hmid
    | file c m a =>
      obtain ⟨d1, ops1, ops2, hstep, hrest, _⟩ :=
        copyListM_cons_file_inv n c m a rest d tp d2 ops h
      have hmid := copyFileNodeM_CS src (.file c m a) d (tp ++ [n]) d1 ops1
        hsrchead rfl hstep hcs
      exact copyListM_CS src rest d1 tp d2 ops2 hwfd.2 hsrcrest hrest hmid
    | other ok m a =>
      obtain ⟨hok, d1, ops1, ops2, hstep, hrest, _⟩ :=
        copyListM_cons_other_inv n ok m a rest d tp d2 ops h
      subst hok
      have hmid := copyFileNodeM_CS src (.other true m a) d (tp ++ [n]) d1 ops1
        hsrchead rfl hstep hcs
      exact copyListM_CS src rest d1 tp d2 ops2 hwfd.2 hsrcrest hrest hmid

end

theorem runCopyL_CS (src : FNode) (cs : FDir) (d : FNode) (d2 : FNode) (ops : List FsOp)
    (hwfd : WFd cs = true)
    (hsrc2 : ∀ pr, pr ∈ FDir.toList cs → getAt src [pr.1] = some pr.2)
    (h : runCopyL cs d = some (d2, ops))
    (hcs : ∀ q nd, q ≠ [] → getAt d q = some nd →
      nd.isFile = true ∨ nd.isDirectory = true → pathExistsM src q = true) :
    ∀ q nd, q ≠ [] → getAt d2 q = some nd →
      nd.isFile = true ∨ nd.isDirectory = true → pathExistsM src q = true := by
  induction cs using FDir.recList generalizing d ops with
  | hnil =>
    simp only [runCopyL, Option.some_inj, Prod.mk.injEq] at h
    rw [← h.1]
    exact hcs
  | hcons n node rest ih =>
    simp only [WFd, Bool.and_eq_true] at hwfd
    have hsrcrest : ∀ pr, pr ∈ FDir.toList rest → getAt src [pr.1] = some pr.2 := by
      intro pr hpr
      refine hsrc2 pr ?_
      simp only [FDir.toList, List.mem_cons]
      exact Or.inr hpr
    have hsrchead : getAt src [n] = some node := by
      refine hsrc2 (n, node) ?_
      simp [FDir.toList]
    cases node with
    | dir ds =>
      obtain ⟨d1, ops1, ops2, hstep, hrest, _⟩ :=
        runCopyL_cons_dir_inv n ds rest d d2 ops h
      have hmid := copyDirM_CS src (.dir ds) d [n] d1 ops1 hwfd.1.2 hsrchead hstep hcs
      exact ih d1 ops2 hwfd.2 hsrcrest hrest hmid
    | file c m a =>
      obtain ⟨d1, ops1, ops2, hstep, hrest, _⟩ :=
        runCopyL_cons_file_inv n c m a rest d d2 ops h
      have hmid := copyFileNodeM_CS src (.file c m a) d [n] d1 ops1 hsrchead rfl hstep hcs
      exact ih d1 ops2 hwfd.2 hsrcrest hrest hmid
    | other ok m a =>
      rw [runCopyL_cons_other] at h
      exact ih d ops hwfd.2 hsrcrest h hcs

/-- C3: running the initial reconciliation (`NaiveSync.run`) twice in
succession with no change to the source tree between the runs leaves the
destination byte-identical after the second run — the second run returns
the very tree produced by the first, contents and timestamps included,
and performs no filesystem operation at all (in particular no `utimes`
restamping: the first run's stamping makes every mtime comparison of the
second run exact). -/
theorem C3_second_run_identity (src dst d1 : FNode) (ops : List FsOp)
    (hwfs : WFn src = true) (hwfd : WFn dst = true)
    (h : runM src dst = some (d1, ops)) :
    runM src d1 = some (d1, []) := by
  cases dst with
  | file c m a => simp [runM] at h
  | other ok m a => simp [runM] at h
  | dir dcs =>
    cases src with
    | file c m a => simp [runM] at h
    | other ok m a => simp [runM] at h
    | dir scs =>
      rw [runM_dir_eq] at h
      cases hrc : runCopyL scs (.dir (cleanupD (.dir scs) [] dcs).1) with
      | none =>
        rw [hrc] at h
        simp at h
      | some r =>
        obtain ⟨r1, r2⟩ := r
        rw [hrc] at h
        simp only [Option.map_some', Option.some_inj, Prod.mk.injEq] at h
        rw [h.1] at hrc
        have hwfds : WFd scs = true := hwfs
        have hwfdd : WFd dcs = true := hwfd
        have hwfC : WFd (cleanupD (.dir scs) [] dcs).1 = true :=
          WFd_cleanupD (.dir scs) [] dcs hwfdd
        have hwf1 : WFn d1 = true :=
          WFn_runCopyL scs (.dir (cleanupD (.dir scs) [] dcs).1) d1 r2 hwfC hrc
        obtain ⟨dcs1, hd1d⟩ := runCopyL_root_dir scs (cleanupD (.dir scs) [] dcs).1 d1 r2 hrc
        have hcs0 : ∀ q nd, q ≠ [] →
            getAt (.dir (cleanupD (.dir scs) [] dcs).1) q = some nd →
            nd.isFile = true ∨ nd.isDirectory = true →
            pathExistsM (.dir scs) q = true := by
          intro q nd hq hg hk
          have h5 := cleanupD_CS (.dir scs) [] dcs q nd hq hg hk
          simpa using h5
        have hsrc2 : ∀ pr, pr ∈ FDir.toList scs → getAt (.dir scs) [pr.1] = some pr.2 := by
          intro pr hpr
          have hlk := FDir.lookup_of_mem_toList scs pr.1 pr.2 hwfds hpr
          simp [getAt, hlk]
        have hcs1 := runCopyL_CS (.dir scs) scs (.dir (cleanupD (.dir scs) [] dcs).1) d1 r2
          hwfds hsrc2 hrc hcs0
        have hset := runCopyL_settles scs (.dir (cleanupD (.dir scs) [] dcs).1) d1 r2
          hwfds hrc
        subst hd1d
        have hclean2 : cleanupD (.dir scs) [] dcs1 = (dcs1, []) := by
          refine cleanupD_noop (.dir scs) [] dcs1 hwf1 ?_
          intro q nd hq hg hk
          exact hcs1 q nd hq hg hk
        rw [runM_dir_eq]
        simp only [hclean2, hset, Option.map_some']
        rfl

/-- Witness for C3: a one-file source against an empty destination; the
first run copies the file, and the theorem yields that the second run
returns the produced tree unchanged with no operations. -/
theorem C3_witness :
    runM (.dir (.cons "a" (.file "1" 10 11) .nil))
        (.dir (.cons "a" (.file "1" 10 11) .nil)) =
      some (.dir (.cons "a" (.file "1" 10 11) .nil), []) :=
  C3_second_run_identity (.dir (.cons "a" (.file "1" 10 11) .nil)) (.dir .nil)
    (.dir (.cons "a" (.file "1" 10 11) .nil))
    [FsOp.fsCopy ["a"], FsOp.utimes ["a"]] rfl rfl rfl
